import Mathlib

/-!
# Verification of the Echo Chess capture-chain solver

A shallow embedding of the solver in `src/main.rs`.  Board square sets
(`SquareSet(u64)` in the source) are embedded as `Nat` values below `2 ^ 64`;
`u64` shifts are embedded with an explicit `% 2 ^ 64` truncation, and the
bitwise complement `!x` on `u64` as xor against `2 ^ 64 - 1`.  Progress states
(`PuzzleState(u32)`) are `Nat` values below `2 ^ 32`.
-/

set_option maxHeartbeats 4000000

/-- Left shift of a `u64` value, truncating at 64 bits. -/
def shl64 (a k : Nat) : Nat := (a <<< k) % 2 ^ 64

/-- Bitwise complement on `u64` (the Rust `!x` on a 64-bit word). -/
def compl64 (a : Nat) : Nat := (2 ^ 64 - 1) ^^^ a

/-- Bitwise complement on `u32` (the Rust `!x` on a 32-bit word). -/
def compl32 (a : Nat) : Nat := (2 ^ 32 - 1) ^^^ a

namespace can_move

/-- Squares from which a one-square move to the left stays on the board:
`!0x0101010101010101` in the source (everything except file a). -/
def LEFT : Nat := compl64 0x0101010101010101

/-- Squares from which a one-square move to the right stays on the board:
`!0x8080808080808080` (everything except file h). -/
def RIGHT : Nat := compl64 0x8080808080808080

/-- Squares from which a two-square move to the left stays on the board. -/
def TWO_LEFT : Nat := compl64 0x0303030303030303

/-- Squares from which a two-square move to the right stays on the board. -/
def TWO_RIGHT : Nat := compl64 0xc0c0c0c0c0c0c0c0

end can_move

/-- Source `impl Stepper for Pawn`, `move_steps`: one square forward. -/
def Pawn.move_steps (f : Nat) : Nat := shl64 f 8

/-- Source `impl Stepper for Pawn`, `capture_steps`: the two forward diagonals. -/
def Pawn.capture_steps (f : Nat) : Nat :=
  shl64 (f &&& can_move.LEFT) 7 ||| shl64 (f &&& can_move.RIGHT) 9

/-- Source `impl Stepper for Bishop`, `move_steps`: the four diagonal steps. -/
def Bishop.move_steps (f : Nat) : Nat :=
  ((f &&& can_move.LEFT) >>> 9) ||| ((f &&& can_move.RIGHT) >>> 7) |||
    shl64 (f &&& can_move.LEFT) 7 ||| shl64 (f &&& can_move.RIGHT) 9

/-- Source `impl Stepper for Bishop`, `capture_steps = move_steps`. -/
def Bishop.capture_steps (f : Nat) : Nat := Bishop.move_steps f

/-- Source `impl Stepper for Rook`, `move_steps`: the four orthogonal steps. -/
def Rook.move_steps (f : Nat) : Nat :=
  (f >>> 8) ||| ((f &&& can_move.LEFT) >>> 1) |||
    shl64 (f &&& can_move.RIGHT) 1 ||| shl64 f 8

/-- Source `impl Stepper for Rook`, `capture_steps = move_steps`. -/
def Rook.capture_steps (f : Nat) : Nat := Rook.move_steps f

/-- Source `impl Stepper for Monarch`, `move_steps`: rook plus bishop steps. -/
def Monarch.move_steps (f : Nat) : Nat := Rook.move_steps f ||| Bishop.move_steps f

/-- Source `impl Stepper for Monarch`, `capture_steps = move_steps`. -/
def Monarch.capture_steps (f : Nat) : Nat := Monarch.move_steps f

/-- Source `impl Stepper for Knight`, `move_steps`: the eight L-shaped jumps. -/
def Knight.move_steps (f : Nat) : Nat :=
  ((f &&& can_move.LEFT) >>> 17) ||| ((f &&& can_move.RIGHT) >>> 15) |||
    ((f &&& can_move.TWO_LEFT) >>> 10) ||| ((f &&& can_move.TWO_RIGHT) >>> 6) |||
    shl64 (f &&& can_move.TWO_LEFT) 6 ||| shl64 (f &&& can_move.TWO_RIGHT) 10 |||
    shl64 (f &&& can_move.LEFT) 15 ||| shl64 (f &&& can_move.RIGHT) 17

/-- Source `impl Stepper for Knight`, `capture_steps = move_steps`. -/
def Knight.capture_steps (f : Nat) : Nat := Knight.move_steps f

/-- The `enum PieceType` of the source. -/
inductive PieceType where
  | pawn
  | bishop
  | rook
  | monarch
  | knight
  deriving DecidableEq, Repr, Fintype

/-- Dispatch a piece type to its `move_steps` implementation (the source does
this through the `Stepper` trait instantiations in `next_states`). -/
def moveStepsOf : PieceType → Nat → Nat
  | .pawn => Pawn.move_steps
  | .bishop => Bishop.move_steps
  | .rook => Rook.move_steps
  | .monarch => Monarch.move_steps
  | .knight => Knight.move_steps

/-- Dispatch a piece type to its `capture_steps` implementation. -/
def captureStepsOf : PieceType → Nat → Nat
  | .pawn => Pawn.capture_steps
  | .bishop => Bishop.capture_steps
  | .rook => Rook.capture_steps
  | .monarch => Monarch.capture_steps
  | .knight => Knight.capture_steps

/-- The fixed-point loop of `captures`: repeatedly replace `reachable` by
`(reachable | S::move_steps(reachable)) & permeable` until the value stops
changing.  The Rust loop has no fuel; 65 iterations always reach the fixed
point (proved below), so the fuelled version agrees with the source loop. -/
def capturesLoop (f : Nat → Nat) : Nat → Nat → Nat
  | 0, r => r
  | fuel + 1, r =>
    if f r = r then r else capturesLoop f fuel (f r)

/-- Source `fn captures<S>(from, obstacles, targets)`: squares of
`targets` capturable after zero or more move steps through permeable squares
followed by one capture step. -/
def captures (pt : PieceType) (fromSet obstacles targets : Nat) : Nat :=
  let permeable := compl64 (obstacles ||| targets)
  let reachable :=
    capturesLoop (fun r => (r ||| moveStepsOf pt r) &&& permeable) 65 (fromSet &&& permeable)
  captureStepsOf pt reachable &&& targets

/-! ## Bit-level semantics of the board-set algebra -/

theorem testBit_shl64 (a k t : Nat) :
    (shl64 a k).testBit t = (decide (t < 64) && (decide (k ≤ t) && a.testBit (t - k))) := by
  unfold shl64
  rw [Nat.testBit_mod_two_pow, Nat.testBit_shiftLeft]

theorem testBit_compl64 (a t : Nat) :
    (compl64 a).testBit t = (decide (t < 64) ^^ a.testBit t) := by
  unfold compl64
  rw [Nat.testBit_xor, Nat.testBit_two_pow_sub_one]

theorem testBit_compl32 (a t : Nat) :
    (compl32 a).testBit t = (decide (t < 32) ^^ a.testBit t) := by
  unfold compl32
  rw [Nat.testBit_xor, Nat.testBit_two_pow_sub_one]

theorem testBit_of_lt_64 {A t : Nat} (h : A < 2 ^ 64) (ht : 64 ≤ t) :
    A.testBit t = false :=
  Nat.testBit_lt_two_pow (lt_of_lt_of_le h (Nat.pow_le_pow_right (by norm_num) ht))

theorem lt_64_of_testBit {A t : Nat} (h : A < 2 ^ 64) (ht : A.testBit t = true) :
    t < 64 := by
  by_contra hge
  rw [testBit_of_lt_64 h (le_of_not_lt hge)] at ht
  exact Bool.false_ne_true ht

theorem shiftRight_lt_two_pow {A k n : Nat} (h : A < 2 ^ n) : A >>> k < 2 ^ n :=
  lt_of_le_of_lt (by rw [Nat.shiftRight_eq_div_pow]; exact Nat.div_le_self A (2 ^ k)) h

theorem shl64_lt : shl64 a k < 2 ^ 64 := Nat.mod_lt _ (by norm_num)

/-! ## Pointwise decomposition of the step functions

Every stepper's `move_steps`/`capture_steps` is a union of shifted, masked
copies of its argument, so membership of a square in the output is equivalent
to membership arising from some single square of the input.  This property,
`PW`, is what the reachability proofs need. -/

/-- Property PW: `f` computes its output pointwise from single squares of its input. -/
def PW (f : Nat → Nat) : Prop :=
  ∀ A t, (f A).testBit t = true ↔ ∃ s, A.testBit s = true ∧ (f (2 ^ s)).testBit t = true

theorem pw_or {f g : Nat → Nat} (hf : PW f) (hg : PW g) :
    PW (fun A => f A ||| g A) := by
  intro A t
  simp only [Nat.testBit_or, Bool.or_eq_true]
  rw [hf A t, hg A t]
  constructor
  · rintro (⟨s, hs, h⟩ | ⟨s, hs, h⟩)
    · exact ⟨s, hs, Or.inl h⟩
    · exact ⟨s, hs, Or.inr h⟩
  · rintro ⟨s, hs, h | h⟩
    · exact Or.inl ⟨s, hs, h⟩
    · exact Or.inr ⟨s, hs, h⟩

theorem pw_shl_masked (m k : Nat) : PW (fun A => shl64 (A &&& m) k) := by
  intro A t
  simp only [testBit_shl64, Nat.testBit_and, Bool.and_eq_true, decide_eq_true_eq,
    Nat.testBit_two_pow, exists_and_left]
  constructor
  · rintro ⟨ht, hk, hA, hm⟩
    exact ⟨t - k, hA, ht, hk, by simp, hm⟩
  · rintro ⟨s, hA, ht, hk, hs, hm⟩
    subst hs
    exact ⟨ht, hk, hA, hm⟩

theorem pw_shl (k : Nat) : PW (fun A => shl64 A k) := by
  intro A t
  simp only [testBit_shl64, Bool.and_eq_true, decide_eq_true_eq, Nat.testBit_two_pow]
  constructor
  · rintro ⟨ht, hk, hA⟩
    exact ⟨t - k, hA, ht, hk, by simp⟩
  · rintro ⟨s, hA, ht, hk, hs⟩
    subst hs
    exact ⟨ht, hk, hA⟩

theorem pw_shr_masked (m k : Nat) : PW (fun A => (A &&& m) >>> k) := by
  intro A t
  simp only [Nat.testBit_shiftRight, Nat.testBit_and, Bool.and_eq_true, Nat.testBit_two_pow]
  constructor
  · rintro ⟨hA, hm⟩
    exact ⟨k + t, hA, by simp, hm⟩
  · rintro ⟨s, hA, hs, hm⟩
    have : s = k + t := of_decide_eq_true hs
    subst this
    exact ⟨hA, hm⟩

theorem pw_shr (k : Nat) : PW (fun A => A >>> k) := by
  intro A t
  simp only [Nat.testBit_shiftRight, Nat.testBit_two_pow]
  constructor
  · intro hA
    exact ⟨k + t, hA, by simp⟩
  · rintro ⟨s, hA, hs⟩
    have : s = k + t := of_decide_eq_true hs
    subst this
    exact hA

theorem pw_moveStepsOf (pt : PieceType) : PW (moveStepsOf pt) := by
  cases pt
  · exact pw_shl 8
  · exact pw_or (pw_or (pw_or (pw_shr_masked can_move.LEFT 9) (pw_shr_masked can_move.RIGHT 7))
      (pw_shl_masked can_move.LEFT 7)) (pw_shl_masked can_move.RIGHT 9)
  · exact pw_or (pw_or (pw_or (pw_shr 8) (pw_shr_masked can_move.LEFT 1))
      (pw_shl_masked can_move.RIGHT 1)) (pw_shl 8)
  · exact pw_or
      (pw_or (pw_or (pw_or (pw_shr 8) (pw_shr_masked can_move.LEFT 1))
        (pw_shl_masked can_move.RIGHT 1)) (pw_shl 8))
      (pw_or (pw_or (pw_or (pw_shr_masked can_move.LEFT 9) (pw_shr_masked can_move.RIGHT 7))
        (pw_shl_masked can_move.LEFT 7)) (pw_shl_masked can_move.RIGHT 9))
  · exact pw_or (pw_or (pw_or (pw_or (pw_or (pw_or (pw_or
      (pw_shr_masked can_move.LEFT 17) (pw_shr_masked can_move.RIGHT 15))
      (pw_shr_masked can_move.TWO_LEFT 10)) (pw_shr_masked can_move.TWO_RIGHT 6))
      (pw_shl_masked can_move.TWO_LEFT 6)) (pw_shl_masked can_move.TWO_RIGHT 10))
      (pw_shl_masked can_move.LEFT 15)) (pw_shl_masked can_move.RIGHT 17)

theorem pw_captureStepsOf (pt : PieceType) : PW (captureStepsOf pt) := by
  cases pt
  · exact pw_or (pw_shl_masked can_move.LEFT 7) (pw_shl_masked can_move.RIGHT 9)
  · exact pw_moveStepsOf .bishop
  · exact pw_moveStepsOf .rook
  · exact pw_moveStepsOf .monarch
  · exact pw_moveStepsOf .knight

theorem pw_mono {f : Nat → Nat} (hf : PW f) {A B : Nat}
    (h : ∀ i, A.testBit i = true → B.testBit i = true) :
    ∀ t, (f A).testBit t = true → (f B).testBit t = true := by
  intro t ht
  obtain ⟨s, hs, h2⟩ := (hf A t).mp ht
  exact (hf B t).mpr ⟨s, h s hs, h2⟩

theorem pw_zero {f : Nat → Nat} (hf : PW f) : f 0 = 0 := by
  apply Nat.eq_of_testBit_eq
  intro i
  simp only [Nat.zero_testBit]
  by_contra h
  rw [Bool.not_eq_false] at h
  obtain ⟨s, hs, -⟩ := (hf 0 i).mp h
  simp at hs

theorem and_lt64 (x m : Nat) (hm : m < 2 ^ 64) : x &&& m < 2 ^ 64 :=
  Nat.and_lt_two_pow x hm

theorem LEFT_lt : can_move.LEFT < 2 ^ 64 := by decide

theorem RIGHT_lt : can_move.RIGHT < 2 ^ 64 := by decide

theorem TWO_LEFT_lt : can_move.TWO_LEFT < 2 ^ 64 := by decide

theorem TWO_RIGHT_lt : can_move.TWO_RIGHT < 2 ^ 64 := by decide

theorem pawn_move_lt {A : Nat} : Pawn.move_steps A < 2 ^ 64 := shl64_lt

theorem pawn_capture_lt {A : Nat} : Pawn.capture_steps A < 2 ^ 64 :=
  Nat.or_lt_two_pow shl64_lt shl64_lt

theorem bishop_move_lt {A : Nat} : Bishop.move_steps A < 2 ^ 64 :=
  Nat.or_lt_two_pow (Nat.or_lt_two_pow (Nat.or_lt_two_pow
    (shiftRight_lt_two_pow (and_lt64 A _ LEFT_lt))
    (shiftRight_lt_two_pow (and_lt64 A _ RIGHT_lt))) shl64_lt) shl64_lt

theorem rook_move_lt {A : Nat} (hA : A < 2 ^ 64) : Rook.move_steps A < 2 ^ 64 :=
  Nat.or_lt_two_pow (Nat.or_lt_two_pow (Nat.or_lt_two_pow
    (shiftRight_lt_two_pow hA)
    (shiftRight_lt_two_pow (and_lt64 A _ LEFT_lt))) shl64_lt) shl64_lt

theorem monarch_move_lt {A : Nat} (hA : A < 2 ^ 64) : Monarch.move_steps A < 2 ^ 64 :=
  Nat.or_lt_two_pow (rook_move_lt hA) bishop_move_lt

theorem knight_move_lt {A : Nat} : Knight.move_steps A < 2 ^ 64 :=
  Nat.or_lt_two_pow (Nat.or_lt_two_pow (Nat.or_lt_two_pow (Nat.or_lt_two_pow
    (Nat.or_lt_two_pow (Nat.or_lt_two_pow (Nat.or_lt_two_pow
      (shiftRight_lt_two_pow (and_lt64 A _ LEFT_lt))
      (shiftRight_lt_two_pow (and_lt64 A _ RIGHT_lt)))
      (shiftRight_lt_two_pow (and_lt64 A _ TWO_LEFT_lt)))
      (shiftRight_lt_two_pow (and_lt64 A _ TWO_RIGHT_lt)))
    shl64_lt) shl64_lt) shl64_lt) shl64_lt

theorem moveStepsOf_lt {pt : PieceType} {A : Nat} (hA : A < 2 ^ 64) :
    moveStepsOf pt A < 2 ^ 64 := by
  cases pt
  · exact pawn_move_lt
  · exact bishop_move_lt
  · exact rook_move_lt hA
  · exact monarch_move_lt hA
  · exact knight_move_lt

theorem captureStepsOf_lt {pt : PieceType} {A : Nat} (hA : A < 2 ^ 64) :
    captureStepsOf pt A < 2 ^ 64 := by
  cases pt
  · exact pawn_capture_lt
  · exact bishop_move_lt
  · exact rook_move_lt hA
  · exact monarch_move_lt hA
  · exact knight_move_lt

/-! ## The fixed-point loop of `captures` -/

/-- One iteration of the loop body in `captures`. -/
def reachStep (pt : PieceType) (perm r : Nat) : Nat := (r ||| moveStepsOf pt r) &&& perm

theorem captures_def (pt : PieceType) (fromSet obstacles targets : Nat) :
    captures pt fromSet obstacles targets =
      captureStepsOf pt
        (capturesLoop (reachStep pt (compl64 (obstacles ||| targets))) 65
          (fromSet &&& compl64 (obstacles ||| targets))) &&& targets := rfl

theorem compl64_lt_of {a : Nat} (h : a < 2 ^ 64) : compl64 a < 2 ^ 64 :=
  Nat.xor_lt_two_pow (by norm_num) h

theorem testBit_compl64_iff {a t : Nat} (ha : a < 2 ^ 64) :
    (compl64 a).testBit t = true ↔ t < 64 ∧ a.testBit t = false := by
  rw [testBit_compl64]
  rcases lt_or_ge t 64 with h2 | h2
  · simp [h2]
  · simp [testBit_of_lt_64 ha h2, show ¬t < 64 by omega]

theorem mem_land {a b i : Nat} :
    (a &&& b).testBit i = true ↔ a.testBit i = true ∧ b.testBit i = true := by
  simp

theorem mem_lor {a b i : Nat} :
    (a ||| b).testBit i = true ↔ a.testBit i = true ∨ b.testBit i = true := by
  simp

theorem lt_two_pow_64_of_testBit {x : Nat} (h : ∀ i, 64 ≤ i → x.testBit i = false) :
    x < 2 ^ 64 := by
  have : x = x % 2 ^ 64 := by
    apply Nat.eq_of_testBit_eq
    intro i
    rw [Nat.testBit_mod_two_pow]
    rcases lt_or_ge i 64 with hi | hi
    · simp [hi]
    · simp [h i hi, Nat.not_lt.mpr hi]
  rw [this]
  exact Nat.mod_lt _ (by norm_num)

/-- Number of squares (bits below 64) in a board set. -/
def bitCard (x : Nat) : Nat :=
  ((Finset.range 64).filter (fun i => x.testBit i = true)).card

theorem bitCard_le (x : Nat) : bitCard x ≤ 64 := by
  have := Finset.card_filter_le (Finset.range 64) (fun i => x.testBit i = true)
  simpa using this

theorem bitCard_lt_of_ssubset {a b : Nat} (ha : a < 2 ^ 64) (hb : b < 2 ^ 64)
    (hsub : ∀ i, a.testBit i = true → b.testBit i = true) (hne : a ≠ b) :
    bitCard a < bitCard b := by
  apply Finset.card_lt_card
  constructor
  · intro i hi
    simp only [Finset.mem_filter, Finset.mem_range] at hi ⊢
    exact ⟨hi.1, hsub i hi.2⟩
  · intro hsup
    apply hne
    apply Nat.eq_of_testBit_eq
    intro i
    rcases lt_or_ge i 64 with hi | hi
    · cases hbi : b.testBit i
      · cases hai : a.testBit i
        · rfl
        · rw [hsub i hai] at hbi; exact hbi.symm ▸ rfl
      · have : i ∈ (Finset.range 64).filter (fun j => b.testBit j = true) := by
          simp [Finset.mem_filter, hi, hbi]
        have := hsup this
        simp only [Finset.mem_filter, Finset.mem_range] at this
        simp [this.2, hbi]
    · rw [testBit_of_lt_64 ha hi, testBit_of_lt_64 hb hi]

section FixLoop

variable {f : Nat → Nat} {perm : Nat}

/-- The loop body keeps its result inside `perm`, is inflationary on subsets of
`perm`, and `perm` fits in 64 bits: under these conditions the loop reaches a
fixed point of `f` within `64 - bitCard r` iterations. -/
theorem capturesLoop_main
    (h1 : ∀ r, r &&& perm = r → ∀ i, r.testBit i = true → (f r).testBit i = true)
    (h2 : ∀ r, f r &&& perm = f r)
    (hperm : perm < 2 ^ 64) :
    ∀ fuel r, r &&& perm = r → 64 - bitCard r < fuel →
      ∃ k, k ≤ 64 - bitCard r ∧ f^[k + 1] r = f^[k] r ∧ capturesLoop f fuel r = f^[k] r := by
  intro fuel
  induction fuel with
  | zero => intro r _ h; omega
  | succ fuel ih =>
    intro r hr hfuel
    by_cases hfix : f r = r
    · refine ⟨0, Nat.zero_le _, ?_, ?_⟩
      · simpa using hfix
      · simp [capturesLoop, hfix]
    · have hrlt : r < 2 ^ 64 := by
        apply lt_two_pow_64_of_testBit
        intro i hi
        conv_lhs => rw [← hr]
        rw [Nat.testBit_and, testBit_of_lt_64 hperm hi, Bool.and_false]
      have hfrlt : f r < 2 ^ 64 := by
        apply lt_two_pow_64_of_testBit
        intro i hi
        conv_lhs => rw [← h2 r]
        rw [Nat.testBit_and, testBit_of_lt_64 hperm hi, Bool.and_false]
      have hcard : bitCard r < bitCard (f r) :=
        bitCard_lt_of_ssubset hrlt hfrlt (h1 r hr) (fun h => hfix h.symm)
      have hcard2 : bitCard (f r) ≤ 64 := bitCard_le _
      obtain ⟨k, hk, hfx, hloop⟩ := ih (f r) (h2 r) (by omega)
      refine ⟨k + 1, by omega, ?_, ?_⟩
      · rw [Function.iterate_succ_apply, Function.iterate_succ_apply]
        exact hfx
      · rw [capturesLoop, if_neg hfix]
        rw [hloop, Function.iterate_succ_apply]

theorem capturesLoop_iterate
    (h1 : ∀ r, r &&& perm = r → ∀ i, r.testBit i = true → (f r).testBit i = true)
    (h2 : ∀ r, f r &&& perm = f r)
    (hperm : perm < 2 ^ 64) (r : Nat) (hr : r &&& perm = r) :
    ∃ k, capturesLoop f 65 r = f^[k] r ∧ f (capturesLoop f 65 r) = capturesLoop f 65 r := by
  obtain ⟨k, -, hfx, hloop⟩ :=
    capturesLoop_main h1 h2 hperm 65 r hr (by have := bitCard_le r; omega)
  refine ⟨k, hloop, ?_⟩
  rw [hloop, ← Function.iterate_succ_apply' f k r, hfx]

end FixLoop

theorem reachStep_land_perm (pt : PieceType) (perm r : Nat) :
    reachStep pt perm r &&& perm = reachStep pt perm r := by
  unfold reachStep
  rw [Nat.land_assoc]
  congr 1
  apply Nat.eq_of_testBit_eq
  intro i
  rw [Nat.testBit_and]
  cases perm.testBit i <;> simp

theorem reachStep_infl (pt : PieceType) (perm : Nat) :
    ∀ r, r &&& perm = r → ∀ i, r.testBit i = true → (reachStep pt perm r).testBit i = true := by
  intro r hr i hi
  have hpi : perm.testBit i = true := by
    rw [← hr] at hi
    exact (mem_land.mp hi).2
  exact mem_land.mpr ⟨mem_lor.mpr (Or.inl hi), hpi⟩

/-! ## Slide-then-capture reachability (the semantics claimed for `captures`) -/

/-- Predicate `SlideReach pt fromSet obstacles targets s`: holds when there are squares
`s0, ..., sn` (`n ≥ 0`) with `s0` in `fromSet`, every `si` outside `obstacles`
and outside `targets`, each `s(i+1)` a one-square slide step of the piece from
`si`, and `sn = s`. -/
inductive SlideReach (pt : PieceType) (fromSet obstacles targets : Nat) : Nat → Prop where
  | start (s : Nat) (hf : fromSet.testBit s = true) (ho : obstacles.testBit s = false)
      (ht : targets.testBit s = false) : SlideReach pt fromSet obstacles targets s
  | slide (s u : Nat) (hr : SlideReach pt fromSet obstacles targets s)
      (hstep : (moveStepsOf pt (2 ^ s)).testBit u = true)
      (ho : obstacles.testBit u = false) (ht : targets.testBit u = false) :
      SlideReach pt fromSet obstacles targets u

section CapturesCorrect

variable {pt : PieceType} {fromSet obstacles targets : Nat}

theorem perm_lt (ho : obstacles < 2 ^ 64) (ht : targets < 2 ^ 64) :
    compl64 (obstacles ||| targets) < 2 ^ 64 :=
  compl64_lt_of (Nat.or_lt_two_pow ho ht)

theorem mem_perm_iff (ho : obstacles < 2 ^ 64) (ht : targets < 2 ^ 64) {i : Nat} :
    (compl64 (obstacles ||| targets)).testBit i = true ↔
      i < 64 ∧ obstacles.testBit i = false ∧ targets.testBit i = false := by
  rw [testBit_compl64_iff (Nat.or_lt_two_pow ho ht)]
  constructor
  · rintro ⟨h1, h2⟩
    rw [Nat.testBit_or] at h2
    exact ⟨h1, by simpa using h2⟩
  · rintro ⟨h1, h2, h3⟩
    refine ⟨h1, ?_⟩
    rw [Nat.testBit_or, h2, h3]
    rfl

theorem iterate_land_perm {perm : Nat} (r : Nat) (hr : r &&& perm = r) :
    ∀ k, (reachStep pt perm)^[k] r &&& perm = (reachStep pt perm)^[k] r := by
  intro k
  induction k with
  | zero => simpa using hr
  | succ k ih =>
    rw [Function.iterate_succ_apply']
    exact reachStep_land_perm pt perm _

theorem iterate_infl {perm : Nat} (r : Nat) (hr : r &&& perm = r) :
    ∀ k i, r.testBit i = true → ((reachStep pt perm)^[k] r).testBit i = true := by
  intro k
  induction k with
  | zero => intro i hi; simpa using hi
  | succ k ih =>
    intro i hi
    rw [Function.iterate_succ_apply']
    exact reachStep_infl pt perm _ (iterate_land_perm r hr k) i (ih i hi)

/-- Any square of any iterate of the loop body is slide-reachable. -/
theorem iterate_sound (hf : fromSet < 2 ^ 64) (ho : obstacles < 2 ^ 64)
    (ht : targets < 2 ^ 64) :
    ∀ k s,
      ((reachStep pt (compl64 (obstacles ||| targets)))^[k]
          (fromSet &&& compl64 (obstacles ||| targets))).testBit s = true →
      SlideReach pt fromSet obstacles targets s := by
  intro k
  induction k with
  | zero =>
    intro s hs
    simp only [Function.iterate_zero, id_eq] at hs
    obtain ⟨h1, h2⟩ := mem_land.mp hs
    obtain ⟨-, h3, h4⟩ := (mem_perm_iff ho ht).mp h2
    exact .start s h1 h3 h4
  | succ k ih =>
    intro s hs
    rw [Function.iterate_succ_apply'] at hs
    unfold reachStep at hs
    obtain ⟨h1, h2⟩ := mem_land.mp hs
    obtain ⟨-, h3, h4⟩ := (mem_perm_iff ho ht).mp h2
    rcases mem_lor.mp h1 with h5 | h5
    · exact ih s h5
    · obtain ⟨u, hu, hstep⟩ := (pw_moveStepsOf pt _ s).mp h5
      exact .slide u s (ih u hu) hstep h3 h4

/-- Any slide-reachable square is in the fixed point computed by the loop. -/
theorem fix_complete (hf : fromSet < 2 ^ 64) (ho : obstacles < 2 ^ 64)
    (ht : targets < 2 ^ 64) {R : Nat}
    (hR0 : ∀ i, (fromSet &&& compl64 (obstacles ||| targets)).testBit i = true →
      R.testBit i = true)
    (hRperm : R &&& compl64 (obstacles ||| targets) = R)
    (hfix : reachStep pt (compl64 (obstacles ||| targets)) R = R) :
    ∀ s, SlideReach pt fromSet obstacles targets s → R.testBit s = true := by
  intro s hs
  induction hs with
  | start s h1 h2 h3 =>
    apply hR0
    apply mem_land.mpr
    refine ⟨h1, (mem_perm_iff ho ht).mpr ⟨lt_64_of_testBit hf h1, h2, h3⟩⟩
  | slide s u hr hstep h2 h3 ih =>
    have hslt : s < 64 := by
      have hRlt : R < 2 ^ 64 := by
        rw [← hRperm]
        exact Nat.and_lt_two_pow _ (perm_lt ho ht)
      exact lt_64_of_testBit hRlt ih
    have hult : u < 64 :=
      lt_64_of_testBit (moveStepsOf_lt (Nat.pow_lt_pow_right (by norm_num) hslt)) hstep
    have hmem : (moveStepsOf pt R).testBit u = true :=
      (pw_moveStepsOf pt R u).mpr ⟨s, ih, hstep⟩
    have : (reachStep pt (compl64 (obstacles ||| targets)) R).testBit u = true := by
      unfold reachStep
      exact mem_land.mpr ⟨mem_lor.mpr (Or.inr hmem),
        (mem_perm_iff ho ht).mpr ⟨hult, h2, h3⟩⟩
    rw [hfix] at this
    exact this

/-- C1 core: bit-level characterization of `captures`. -/
theorem captures_iff (pt : PieceType) (fromSet obstacles targets : Nat)
    (hf : fromSet < 2 ^ 64) (ho : obstacles < 2 ^ 64) (ht : targets < 2 ^ 64) (t : Nat) :
    (captures pt fromSet obstacles targets).testBit t = true ↔
      targets.testBit t = true ∧
        ∃ s, SlideReach pt fromSet obstacles targets s ∧
          (captureStepsOf pt (2 ^ s)).testBit t = true := by
  rw [captures_def]
  set perm := compl64 (obstacles ||| targets) with hperm_def
  have hperm : perm < 2 ^ 64 := perm_lt ho ht
  have hr0 : (fromSet &&& perm) &&& perm = fromSet &&& perm := by
    rw [Nat.land_assoc]
    congr 1
    apply Nat.eq_of_testBit_eq
    intro i
    rw [Nat.testBit_and]
    cases perm.testBit i <;> simp
  obtain ⟨k, hloop, hfix⟩ :=
    capturesLoop_iterate (f := reachStep pt perm) (reachStep_infl pt perm)
      (fun r => reachStep_land_perm pt perm r) hperm (fromSet &&& perm) hr0
  set R := capturesLoop (reachStep pt perm) 65 (fromSet &&& perm) with hR_def
  have hRperm : R &&& perm = R := by
    rw [hloop]
    exact iterate_land_perm _ hr0 k
  constructor
  · intro h
    obtain ⟨hcs, htg⟩ := mem_land.mp h
    refine ⟨htg, ?_⟩
    obtain ⟨s, hsR, hcap⟩ := (pw_captureStepsOf pt R t).mp hcs
    refine ⟨s, ?_, hcap⟩
    rw [hloop] at hsR
    exact iterate_sound hf ho ht k s hsR
  · rintro ⟨htg, s, hsr, hcap⟩
    apply mem_land.mpr
    refine ⟨?_, htg⟩
    have hsR : R.testBit s = true :=
      fix_complete hf ho ht (fun i hi => by rw [hloop]; exact iterate_infl _ hr0 k i hi)
        hRperm hfix s hsr
    exact (pw_captureStepsOf pt R t).mpr ⟨s, hsR, hcap⟩

end CapturesCorrect

/-- C1: for every piece kind and all square sets, `captures` returns exactly
the targets `t` for which some square `s` is reachable from `fromSet` by zero
or more one-square slide steps through squares outside `obstacles` and outside
`targets`, and `t` is one capture step of the piece away from `s`. -/
theorem captures_realizes_slide_then_capture (pt : PieceType)
    (fromSet obstacles targets : Nat) (hf : fromSet < 2 ^ 64)
    (ho : obstacles < 2 ^ 64) (ht : targets < 2 ^ 64) (t : Nat) :
    (captures pt fromSet obstacles targets).testBit t = true ↔
      targets.testBit t = true ∧
        ∃ s, SlideReach pt fromSet obstacles targets s ∧
          (captureStepsOf pt (2 ^ s)).testBit t = true :=
  captures_iff pt fromSet obstacles targets hf ho ht t

theorem captures_realizes_slide_then_capture_witness :
    (captures PieceType.rook 1 0 (2 ^ 56)).testBit 56 = true ↔
      (2 ^ 56 : Nat).testBit 56 = true ∧
        ∃ s, SlideReach PieceType.rook 1 0 (2 ^ 56) s ∧
          (captureStepsOf PieceType.rook (2 ^ s)).testBit 56 = true :=
  captures_realizes_slide_then_capture PieceType.rook 1 0 (2 ^ 56)
    (by decide) (by decide) (by decide) 56

/-- Transfer of slide-reachability along a shrinking of the obstacle set. -/
theorem SlideReach.mono_obstacles {pt : PieceType}
    {fromSet obstacles obstacles' targets : Nat}
    (hsub : ∀ i, obstacles.testBit i = true → obstacles'.testBit i = true) :
    ∀ s, SlideReach pt fromSet obstacles' targets s →
      SlideReach pt fromSet obstacles targets s := by
  intro s hs
  induction hs with
  | start s h1 h2 h3 =>
    refine .start s h1 ?_ h3
    cases h : obstacles.testBit s
    · rfl
    · rw [hsub s h] at h2; exact h2
  | slide s u hr hstep h2 h3 ih =>
    refine .slide s u ih hstep ?_ h3
    cases h : obstacles.testBit u
    · rfl
    · rw [hsub u h] at h2; exact h2

/-- C8: `captures` is antitone in its obstacle argument: enlarging `obstacles`
can only shrink the set of capturable targets. -/
theorem captures_antitone_obstacles (pt : PieceType)
    (fromSet obstacles obstacles' targets : Nat) (hf : fromSet < 2 ^ 64)
    (ho' : obstacles' < 2 ^ 64) (ht : targets < 2 ^ 64)
    (hsub : ∀ i, obstacles.testBit i = true → obstacles'.testBit i = true)
    (t : Nat) (h : (captures pt fromSet obstacles' targets).testBit t = true) :
    (captures pt fromSet obstacles targets).testBit t = true := by
  have ho : obstacles < 2 ^ 64 := by
    apply lt_two_pow_64_of_testBit
    intro i hi
    cases h2 : obstacles.testBit i
    · rfl
    · have := hsub i h2
      rw [testBit_of_lt_64 ho' hi] at this
      exact this.symm
  obtain ⟨htg, s, hsr, hcap⟩ := (captures_iff pt fromSet obstacles' targets hf ho' ht t).mp h
  exact (captures_iff pt fromSet obstacles targets hf ho ht t).mpr
    ⟨htg, s, SlideReach.mono_obstacles hsub s hsr, hcap⟩

theorem captures_antitone_obstacles_witness :
    (captures PieceType.rook 1 (2 ^ 24) (2 ^ 56)).testBit 56 = true ∧
      (captures PieceType.rook 1 0 (2 ^ 56)).testBit 56 = true :=
  ⟨by decide,
    captures_antitone_obstacles PieceType.rook 1 0 (2 ^ 24) (2 ^ 56)
      (by decide) (by decide) (by decide)
      (fun i hi => by rw [Nat.zero_testBit] at hi; exact absurd hi (by simp))
      56 (by decide)⟩

theorem land_land_self (a b : Nat) : (a &&& b) &&& b = a &&& b := by
  rw [Nat.land_assoc]
  congr 1
  apply Nat.eq_of_testBit_eq
  intro i
  rw [Nat.testBit_and]
  cases b.testBit i <;> simp

theorem bitCard_eq_zero {x : Nat} (hx : x < 2 ^ 64) (h : bitCard x = 0) : x = 0 := by
  apply Nat.eq_of_testBit_eq
  intro i
  rw [Nat.zero_testBit]
  rcases lt_or_ge i 64 with hi | hi
  · by_contra hne
    rw [Bool.not_eq_false] at hne
    have : i ∈ (Finset.range 64).filter (fun j => x.testBit j = true) := by
      simp [Finset.mem_filter, hi, hne]
    rw [Finset.card_eq_zero.mp h] at this
    exact absurd this (Finset.not_mem_empty i)
  · exact testBit_of_lt_64 hx hi

/-- C9: the fixed-point loop of `captures` reaches a fixed point: there is a
`k ≤ 63` with `step^[k+1] = step^[k]` on the initial reachable set (so the
source loop exits on its `(k+1)`-st iteration, at most its 64th), and the
fuelled loop embedding returns exactly that fixed point. -/
theorem capturesLoop_terminates (pt : PieceType) (fromSet obstacles targets : Nat)
    (ho : obstacles < 2 ^ 64) (ht : targets < 2 ^ 64) :
    ∃ k, k ≤ 63 ∧
      (reachStep pt (compl64 (obstacles ||| targets)))^[k + 1]
          (fromSet &&& compl64 (obstacles ||| targets)) =
        (reachStep pt (compl64 (obstacles ||| targets)))^[k]
          (fromSet &&& compl64 (obstacles ||| targets)) ∧
      capturesLoop (reachStep pt (compl64 (obstacles ||| targets))) 65
          (fromSet &&& compl64 (obstacles ||| targets)) =
        (reachStep pt (compl64 (obstacles ||| targets)))^[k]
          (fromSet &&& compl64 (obstacles ||| targets)) := by
  set perm := compl64 (obstacles ||| targets) with hperm_def
  have hperm : perm < 2 ^ 64 := perm_lt ho ht
  set r := fromSet &&& perm with hr_def
  have hr : r &&& perm = r := land_land_self fromSet perm
  by_cases h0 : r = 0
  · have hms0 : moveStepsOf pt 0 = 0 := pw_zero (pw_moveStepsOf pt)
    have hfix : reachStep pt perm 0 = 0 := by
      unfold reachStep
      rw [hms0]
      simp
    refine ⟨0, by omega, ?_, ?_⟩
    · rw [h0]
      simp [hfix]
    · rw [h0]
      simp [capturesLoop, hfix]
  · have hcard : 1 ≤ bitCard r := by
      by_contra hc
      have : bitCard r = 0 := by omega
      have hrlt : r < 2 ^ 64 := by
        rw [← hr]
        exact Nat.and_lt_two_pow _ hperm
      exact h0 (bitCard_eq_zero hrlt this)
    obtain ⟨k, hk, hfx, hloop⟩ :=
      capturesLoop_main (f := reachStep pt perm) (reachStep_infl pt perm)
        (fun r => reachStep_land_perm pt perm r) hperm 65 r hr
        (by have := bitCard_le r; omega)
    exact ⟨k, by omega, hfx, hloop⟩

theorem capturesLoop_terminates_witness :
    ∃ k, k ≤ 63 ∧
      (reachStep PieceType.rook (compl64 (0 ||| 2 ^ 56)))^[k + 1]
          (1 &&& compl64 (0 ||| 2 ^ 56)) =
        (reachStep PieceType.rook (compl64 (0 ||| 2 ^ 56)))^[k]
          (1 &&& compl64 (0 ||| 2 ^ 56)) ∧
      capturesLoop (reachStep PieceType.rook (compl64 (0 ||| 2 ^ 56))) 65
          (1 &&& compl64 (0 ||| 2 ^ 56)) =
        (reachStep PieceType.rook (compl64 (0 ||| 2 ^ 56)))^[k]
          (1 &&& compl64 (0 ||| 2 ^ 56)) :=
  capturesLoop_terminates PieceType.rook 1 0 (2 ^ 56) (by decide) (by decide)

/-! ## Geometric description of the one-square steps (C7)

The following predicates are written from the spec's geometric wording
(files/ranks and adjacency, no wraparound), to be compared with the bitboard
step functions of the source. -/

/-- File (column) of a square index. -/
def fileOf (s : Nat) : Nat := s % 8

/-- Rank (row) of a square index. -/
def rankOf (s : Nat) : Nat := s / 8

/-- Rook geometric step: orthogonally adjacent on-board squares. -/
abbrev rookStepGeom (s t : Nat) : Prop :=
  t < 64 ∧ ((fileOf t = fileOf s ∧ (rankOf t = rankOf s + 1 ∨ rankOf t + 1 = rankOf s)) ∨
    (rankOf t = rankOf s ∧ (fileOf t = fileOf s + 1 ∨ fileOf t + 1 = fileOf s)))

/-- Bishop geometric step: diagonally adjacent on-board squares. -/
abbrev bishopStepGeom (s t : Nat) : Prop :=
  t < 64 ∧ (fileOf t = fileOf s + 1 ∨ fileOf t + 1 = fileOf s) ∧
    (rankOf t = rankOf s + 1 ∨ rankOf t + 1 = rankOf s)

/-- Monarch geometric step: rook or bishop step. -/
abbrev monarchStepGeom (s t : Nat) : Prop := rookStepGeom s t ∨ bishopStepGeom s t

/-- Knight geometric step: on-board L-shaped jumps (file offset 1 with rank
offset 2, or file offset 2 with rank offset 1). -/
abbrev knightStepGeom (s t : Nat) : Prop :=
  t < 64 ∧
    (((fileOf t = fileOf s + 1 ∨ fileOf t + 1 = fileOf s) ∧
        (rankOf t = rankOf s + 2 ∨ rankOf t + 2 = rankOf s)) ∨
      ((fileOf t = fileOf s + 2 ∨ fileOf t + 2 = fileOf s) ∧
        (rankOf t = rankOf s + 1 ∨ rankOf t + 1 = rankOf s)))

/-- Pawn geometric slide: only the square at index `s + 8`. -/
abbrev pawnSlideGeom (s t : Nat) : Prop := t < 64 ∧ t = s + 8

/-- Pawn geometric capture: the two on-board forward diagonals. -/
abbrev pawnCaptureGeom (s t : Nat) : Prop :=
  t < 64 ∧ ((fileOf s ≠ 0 ∧ t = s + 7) ∨ (fileOf s ≠ 7 ∧ t = s + 9))

/-- C7: on every singleton square set, each piece kind's step functions equal
their geometric definitions, with no wraparound across board edges; and for
every kind except Pawn, `capture_steps` equals `move_steps`. -/
theorem step_functions_geometric :
    (∀ s, s < 64 → ∀ t,
      ((moveStepsOf PieceType.rook (2 ^ s)).testBit t = true ↔ rookStepGeom s t) ∧
      ((moveStepsOf PieceType.bishop (2 ^ s)).testBit t = true ↔ bishopStepGeom s t) ∧
      ((moveStepsOf PieceType.monarch (2 ^ s)).testBit t = true ↔ monarchStepGeom s t) ∧
      ((moveStepsOf PieceType.knight (2 ^ s)).testBit t = true ↔ knightStepGeom s t) ∧
      ((moveStepsOf PieceType.pawn (2 ^ s)).testBit t = true ↔ pawnSlideGeom s t) ∧
      ((captureStepsOf PieceType.pawn (2 ^ s)).testBit t = true ↔ pawnCaptureGeom s t)) ∧
    (∀ pt, pt ≠ PieceType.pawn → ∀ A, captureStepsOf pt A = moveStepsOf pt A) := by
  constructor
  · have h1 : ∀ s, s < 64 → ∀ t, t < 64 →
        ((moveStepsOf PieceType.rook (2 ^ s)).testBit t = true ↔ rookStepGeom s t) := by
      decide
    have h2 : ∀ s, s < 64 → ∀ t, t < 64 →
        ((moveStepsOf PieceType.bishop (2 ^ s)).testBit t = true ↔ bishopStepGeom s t) := by
      decide
    have h3 : ∀ s, s < 64 → ∀ t, t < 64 →
        ((moveStepsOf PieceType.monarch (2 ^ s)).testBit t = true ↔ monarchStepGeom s t) := by
      decide
    have h4 : ∀ s, s < 64 → ∀ t, t < 64 →
        ((moveStepsOf PieceType.knight (2 ^ s)).testBit t = true ↔ knightStepGeom s t) := by
      decide
    have h5 : ∀ s, s < 64 → ∀ t, t < 64 →
        ((moveStepsOf PieceType.pawn (2 ^ s)).testBit t = true ↔ pawnSlideGeom s t) := by
      decide
    have h6 : ∀ s, s < 64 → ∀ t, t < 64 →
        ((captureStepsOf PieceType.pawn (2 ^ s)).testBit t = true ↔ pawnCaptureGeom s t) := by
      decide
    intro s hs t
    rcases lt_or_ge t 64 with ht | ht
    · exact ⟨h1 s hs t ht, h2 s hs t ht, h3 s hs t ht, h4 s hs t ht, h5 s hs t ht,
        h6 s hs t ht⟩
    · have h2s : (2 : Nat) ^ s < 2 ^ 64 := Nat.pow_lt_pow_right (by norm_num) hs
      have hnt : ¬t < 64 := by omega
      refine ⟨?_, ?_, ?_, ?_, ?_, ?_⟩
      · rw [testBit_of_lt_64 (moveStepsOf_lt h2s) ht]
        unfold rookStepGeom
        simp [hnt]
      · rw [testBit_of_lt_64 (moveStepsOf_lt h2s) ht]
        unfold bishopStepGeom
        simp [hnt]
      · rw [testBit_of_lt_64 (moveStepsOf_lt h2s) ht]
        unfold monarchStepGeom rookStepGeom bishopStepGeom
        simp [hnt]
      · rw [testBit_of_lt_64 (moveStepsOf_lt h2s) ht]
        unfold knightStepGeom
        simp [hnt]
      · rw [testBit_of_lt_64 (moveStepsOf_lt h2s) ht]
        unfold pawnSlideGeom
        simp [hnt]
      · rw [testBit_of_lt_64 (captureStepsOf_lt h2s) ht]
        unfold pawnCaptureGeom
        simp [hnt]
  · intro pt hpt A
    cases pt
    · exact absurd rfl hpt
    · rfl
    · rfl
    · rfl
    · rfl

theorem step_functions_geometric_witness :
    ((moveStepsOf PieceType.rook (2 ^ 0)).testBit 8 = true ↔ rookStepGeom 0 8) ∧
      captureStepsOf PieceType.rook 17 = moveStepsOf PieceType.rook 17 :=
  ⟨(step_functions_geometric.1 0 (by decide) 8).1,
    step_functions_geometric.2 PieceType.rook (by decide) 17⟩

/-! ## Puzzle model and progress states

`struct Puzzle`: fixed arrays become lists (`piece_types`/`piece_locs` of
length 32, `pieces_by_loc` of length 64, sentinel `0xff = 255`); a progress
state `PuzzleState(u32)` is a `Nat` below `2 ^ 32`. -/

/-- Source `struct Puzzle`. -/
structure Puzzle where
  obstacles : Nat
  piece_types : List (Option PieceType)
  piece_locs : List Nat
  pieces_by_loc : List Nat
  player_start : Nat
  deriving Repr, DecidableEq

/-- Source `PuzzleState::remaining_captures`: bits 0–26 of the packed state. -/
def PuzzleState.remaining_captures (s : Nat) : Nat := s &&& 0x07ffffff

/-- Source `PuzzleState::current_piece_idx`: bits 27–31 of the packed state. -/
def PuzzleState.current_piece_idx (s : Nat) : Nat := s >>> 27

/-- Source `PuzzleState::done`: all opposing pieces captured. -/
def PuzzleState.done (s : Nat) : Bool := PuzzleState.remaining_captures s == 0

/-- Source `PuzzleState::initial`: every piece except the player's needs capture,
and the player's piece is in hand (all `u32` arithmetic). -/
def PuzzleState.initial (p : Puzzle) : Nat :=
  let num_pieces := (p.piece_locs.takeWhile (fun z => z != 255)).length
  let to_capture :=
    (((1 <<< num_pieces) - 1) % 2 ^ 32) &&& compl32 ((1 <<< p.player_start) % 2 ^ 32)
  to_capture ||| ((p.player_start <<< 27) % 2 ^ 32)

/-- Ascending list of set-bit indices of a value below `2 ^ 64`.  The source
iterates `trailing_zeros`, clearing the lowest bit each time, which visits set
bits in exactly this ascending order. -/
def bitIndices (n : Nat) : List Nat := (List.range 64).filter n.testBit

/-- The `targets` bitboard built in `next_states`: union of the squares of all
pieces still marked as remaining. -/
def targetsOf (p : Puzzle) (s : Nat) : Nat :=
  (bitIndices (PuzzleState.remaining_captures s)).foldl
    (fun res i => res ||| ((1 <<< p.piece_locs.getD i 255) % 2 ^ 64)) 0

/-- The successor state built by `next_states` for a capturable square `sq`:
look up the occupying piece index, clear its bit from the remaining mask, and
make it the in-hand piece (all `u32` arithmetic). -/
def mkSucc (p : Puzzle) (s sq : Nat) : Nat :=
  let piece_idx := p.pieces_by_loc.getD sq 255
  (PuzzleState.remaining_captures s &&& compl32 ((1 <<< piece_idx) % 2 ^ 32)) |||
    ((piece_idx <<< 27) % 2 ^ 32)

/-- Source `PuzzleState::next_states`: one successor per capturable square, in
ascending square order.  The `none` branch models the `panic!("no piece")`
arm; `nextStatesPanics` below records when it would be taken. -/
def PuzzleState.next_states (p : Puzzle) (s : Nat) : List Nat :=
  let player_idx := PuzzleState.current_piece_idx s
  let start := (1 <<< p.piece_locs.getD player_idx 255) % 2 ^ 64
  match p.piece_types.getD player_idx none with
  | none => []
  | some pt =>
    let caps := captures pt start p.obstacles (targetsOf p s)
    (bitIndices caps).map (mkSucc p s)

/-- The in-hand index names no piece: the `panic!("no piece")` branch of
`next_states` would fire. -/
def nextStatesPanics (p : Puzzle) (s : Nat) : Prop :=
  p.piece_types.getD (PuzzleState.current_piece_idx s) none = none

/-- Number of pieces of a puzzle (length of the populated `piece_locs`
prefix, as counted by `PuzzleState::initial`). -/
def numPieces (p : Puzzle) : Nat := (p.piece_locs.takeWhile (fun z => z != 255)).length

/-- The well-formedness invariant of a constructed `Puzzle` (spec §3): arrays
have their fixed sizes, pieces `0 ≤ i < numPieces` have on-board squares and
real types with `pieces_by_loc` the exact inverse of `piece_locs`, all other
slots hold the absent sentinel, at most 27 pieces exist, and the player start
names a piece. -/
def Puzzle.Valid (p : Puzzle) : Prop :=
  p.piece_types.length = 32 ∧
  p.piece_locs.length = 32 ∧
  p.pieces_by_loc.length = 64 ∧
  p.obstacles < 2 ^ 64 ∧
  numPieces p ≤ 27 ∧
  p.player_start < numPieces p ∧
  (∀ i, i < numPieces p →
    p.piece_locs.getD i 255 < 64 ∧
    (p.piece_types.getD i none).isSome = true ∧
    p.pieces_by_loc.getD (p.piece_locs.getD i 255) 255 = i) ∧
  (∀ i, i < 32 → numPieces p ≤ i →
    p.piece_locs.getD i 255 = 255 ∧ p.piece_types.getD i none = none) ∧
  (∀ sq, sq < 64 → p.pieces_by_loc.getD sq 255 ≠ 255 →
    p.pieces_by_loc.getD sq 255 < numPieces p ∧
    p.piece_locs.getD (p.pieces_by_loc.getD sq 255) 255 = sq)

/-- The progress-state invariant: the in-hand index names a piece, its bit is
clear in the remaining mask, every remaining bit names a piece, and the state
fits in 32 bits. -/
def StateInv (p : Puzzle) (s : Nat) : Prop :=
  PuzzleState.current_piece_idx s < numPieces p ∧
  (PuzzleState.remaining_captures s).testBit (PuzzleState.current_piece_idx s) = false ∧
  (∀ j, j < 27 → (PuzzleState.remaining_captures s).testBit j = true → j < numPieces p) ∧
  s < 2 ^ 32

/-- Paths in the transition system: `PathTo p s l u` means the solver can go
from state `s` to state `u`, capturing the pieces listed in `l` in order. -/
inductive PathTo (p : Puzzle) : Nat → List Nat → Nat → Prop where
  | refl (s : Nat) : PathTo p s [] s
  | cons (s t u : Nat) (l : List Nat) (hstep : t ∈ PuzzleState.next_states p s)
      (hrest : PathTo p t l u) : PathTo p s (PuzzleState.current_piece_idx t :: l) u

/-! ## The breadth-first solver -/

/-- Association lookup in the predecessor list (the `HashMap` of the source,
in deterministic insertion order). -/
def lookupA : List (Nat × Nat) → Nat → Option Nat
  | [], _ => none
  | (a, b) :: rest, k => if a = k then some b else lookupA rest k

/-- Process the successors of one frontier state `prev`: record first
predecessors, extend the next frontier, and remember a terminal successor
(the source's inner `for`-loop over `next_states`). -/
def expandState (prev : Nat) :
    List Nat → List (Nat × Nat) → List Nat → Option Nat →
      List (Nat × Nat) × List Nat × Option Nat
  | [], preds, nf, d => (preds, nf, d)
  | next :: rest, preds, nf, d =>
    let d2 := if PuzzleState.done next then some next else d
    match lookupA preds next with
    | some _ => expandState prev rest preds nf d2
    | none => expandState prev rest ((next, prev) :: preds) (next :: nf) d2

/-- Walk predecessor links back from a terminal state, collecting in-hand
piece indices (the source's `while let Some(&prev)` unwind loop; 33 links
always suffice, since a chain ends at the initial state). -/
def unwind (preds : List (Nat × Nat)) : Nat → Nat → List Nat
  | 0, _ => []
  | fuel + 1, current =>
    match lookupA preds current with
    | none => []
    | some prev => PuzzleState.current_piece_idx current :: unwind preds fuel prev

/-- Expand every state of the current frontier in order, stopping right after
the first state one of whose successors is terminal (the source's
`for &prev in frontier.iter()` loop). -/
def solveFrontier (p : Puzzle) : List Nat → List (Nat × Nat) → List Nat →
    List (Nat × Nat) × List Nat × Option Nat
  | [], preds, nf => (preds, nf, none)
  | prev :: rest, preds, nf =>
    match expandState prev (PuzzleState.next_states p prev) preds nf none with
    | (preds2, nf2, some fs) => (preds2, nf2, some fs)
    | (preds2, nf2, none) => solveFrontier p rest preds2 nf2

/-- The source's `while !frontier.is_empty()` loop.  Each level of the search
removes one more capture, so 33 levels always suffice for a valid puzzle
(at most 27 pieces); fuel exhaustion is proved unreachable below. -/
def solveLoop (p : Puzzle) : Nat → List (Nat × Nat) → List Nat → Option (List Nat)
  | 0, _, _ => none
  | fuel + 1, preds, frontier =>
    if frontier.isEmpty then none
    else
      match solveFrontier p frontier preds [] with
      | (preds2, _, some fs) => some (unwind preds2 33 fs).reverse
      | (preds2, nf2, none) => solveLoop p fuel preds2 nf2

/-- Source `fn solve`: breadth-first search from the initial state. -/
def solve (p : Puzzle) : Option (List Nat) :=
  solveLoop p 33 [] [PuzzleState.initial p]

instance (p : Puzzle) : Decidable p.Valid := by
  unfold Puzzle.Valid
  infer_instance

instance (p : Puzzle) (s : Nat) : Decidable (StateInv p s) := by
  unfold StateInv
  infer_instance

theorem remaining_lt (s : Nat) : PuzzleState.remaining_captures s < 2 ^ 27 :=
  Nat.and_lt_two_pow s (by norm_num)

theorem rem_testBit_lt {s j : Nat}
    (h : (PuzzleState.remaining_captures s).testBit j = true) : j < 27 := by
  have h1 := Nat.testBit_implies_ge h
  have h2 := remaining_lt s
  by_contra hc
  have : (2 : Nat) ^ 27 ≤ 2 ^ j := Nat.pow_le_pow_right (by norm_num) (by omega)
  omega

/-- The unbounded form of the third `StateInv` conjunct. -/
theorem StateInv.rem_bits {p : Puzzle} {s : Nat} (h : StateInv p s) :
    ∀ j, (PuzzleState.remaining_captures s).testBit j = true → j < numPieces p :=
  fun j hj => h.2.2.1 j (rem_testBit_lt hj) hj

/-! ## Arithmetic of the packed state encoding -/

theorem shl_one_mod32 {j : Nat} (hj : j < 32) : (1 <<< j) % 2 ^ 32 = 2 ^ j := by
  rw [Nat.one_shiftLeft]
  exact Nat.mod_eq_of_lt (Nat.pow_lt_pow_right (by norm_num) hj)

theorem shl_one_mod64 {j : Nat} (hj : j < 64) : (1 <<< j) % 2 ^ 64 = 2 ^ j := by
  rw [Nat.one_shiftLeft]
  exact Nat.mod_eq_of_lt (Nat.pow_lt_pow_right (by norm_num) hj)

theorem pack_current {a j : Nat} (ha : a < 2 ^ 27) (hj : j < 32) :
    PuzzleState.current_piece_idx (a ||| ((j <<< 27) % 2 ^ 32)) = j := by
  unfold PuzzleState.current_piece_idx
  apply Nat.eq_of_testBit_eq
  intro i
  rw [Nat.testBit_shiftRight, Nat.testBit_or, Nat.testBit_mod_two_pow, Nat.testBit_shiftLeft]
  have h1 : a.testBit (27 + i) = false :=
    Nat.testBit_lt_two_pow (lt_of_lt_of_le ha (Nat.pow_le_pow_right (by norm_num) (by omega)))
  rw [h1]
  have h2 : 27 + i - 27 = i := by omega
  rw [h2]
  rcases lt_or_ge i 5 with hi | hi
  · simp [show 27 + i < 32 by omega, show 27 ≤ 27 + i by omega]
  · have h3 : j.testBit i = false := by
      apply Nat.testBit_lt_two_pow
      calc j < 32 := hj
        _ = 2 ^ 5 := by norm_num
        _ ≤ 2 ^ i := Nat.pow_le_pow_right (by norm_num) hi
    simp [h3, show ¬27 + i < 32 by omega]

theorem pack_remaining {a j : Nat} (ha : a < 2 ^ 27) :
    PuzzleState.remaining_captures (a ||| ((j <<< 27) % 2 ^ 32)) = a := by
  unfold PuzzleState.remaining_captures
  apply Nat.eq_of_testBit_eq
  intro i
  rw [Nat.testBit_and, Nat.testBit_or]
  have hmask : (0x07ffffff : Nat) = 2 ^ 27 - 1 := by norm_num
  rw [hmask, Nat.testBit_two_pow_sub_one]
  rcases lt_or_ge i 27 with hi | hi
  · have h1 : ((j <<< 27) % 2 ^ 32).testBit i = false := by
      rw [Nat.testBit_mod_two_pow, Nat.testBit_shiftLeft]
      simp [show ¬27 ≤ i by omega]
    rw [h1]
    simp [hi]
  · have h1 : a.testBit i = false :=
      Nat.testBit_lt_two_pow (lt_of_lt_of_le ha (Nat.pow_le_pow_right (by norm_num) hi))
    simp [h1, show ¬i < 27 by omega]

theorem testBit_clearBit {a j : Nat} (ha : a < 2 ^ 27) (hj : j < 32) (i : Nat) :
    (a &&& compl32 ((1 <<< j) % 2 ^ 32)).testBit i = (a.testBit i && !(decide (i = j))) := by
  rw [Nat.testBit_and, shl_one_mod32 hj, testBit_compl32, Nat.testBit_two_pow]
  rcases lt_or_ge i 32 with hi | hi
  · by_cases h : i = j
    · subst h
      simp [hi]
    · have h4 : ¬j = i := fun hh => h hh.symm
      simp [hi, h, h4]
  · have h1 : a.testBit i = false :=
      Nat.testBit_lt_two_pow (lt_of_lt_of_le ha (Nat.pow_le_pow_right (by norm_num) (by omega)))
    simp [h1]

/-! ## Characterizing targets and successors -/

theorem mem_bitIndices {n i : Nat} : i ∈ bitIndices n ↔ n.testBit i = true ∧ i < 64 := by
  unfold bitIndices
  rw [List.mem_filter, List.mem_range]
  exact and_comm

theorem bitIndices_nodup (n : Nat) : (bitIndices n).Nodup :=
  (List.nodup_range 64).filter _

theorem foldl_lor_testBit (g : Nat → Nat) (l : List Nat) (acc i : Nat) :
    (l.foldl (fun res j => res ||| g j) acc).testBit i = true ↔
      acc.testBit i = true ∨ ∃ j ∈ l, (g j).testBit i = true := by
  induction l generalizing acc with
  | nil => simp
  | cons x xs ih =>
    rw [List.foldl_cons, ih]
    constructor
    · rintro (h | ⟨j, hj, hji⟩)
      · rcases mem_lor.mp h with h | h
        · exact Or.inl h
        · exact Or.inr ⟨x, List.mem_cons_self x xs, h⟩
      · exact Or.inr ⟨j, List.mem_cons_of_mem x hj, hji⟩
    · rintro (h | ⟨j, hj, hji⟩)
      · exact Or.inl (mem_lor.mpr (Or.inl h))
      · rcases List.mem_cons.mp hj with rfl | hj2
        · exact Or.inl (mem_lor.mpr (Or.inr hji))
        · exact Or.inr ⟨j, hj2, hji⟩

theorem testBit_targetsOf {p : Puzzle} {s sq : Nat} :
    (targetsOf p s).testBit sq = true ↔
      ∃ j, (PuzzleState.remaining_captures s).testBit j = true ∧
        ((1 <<< p.piece_locs.getD j 255) % 2 ^ 64).testBit sq = true := by
  unfold targetsOf
  rw [foldl_lor_testBit]
  constructor
  · rintro (h | ⟨j, hj, hji⟩)
    · exact absurd h (by simp)
    · exact ⟨j, (mem_bitIndices.mp hj).1, hji⟩
  · rintro ⟨j, hj, hji⟩
    exact Or.inr ⟨j, mem_bitIndices.mpr ⟨hj, by have := rem_testBit_lt hj; omega⟩, hji⟩

theorem targetsOf_lt (p : Puzzle) (s : Nat) : targetsOf p s < 2 ^ 64 := by
  apply lt_two_pow_64_of_testBit
  intro i hi
  by_contra h
  rw [Bool.not_eq_false] at h
  obtain ⟨j, -, hji⟩ := testBit_targetsOf.mp h
  have : i < 64 := lt_64_of_testBit (Nat.mod_lt _ (by norm_num)) hji
  omega

theorem captures_subset_targets {pt : PieceType} {f o tg sq : Nat}
    (h : (captures pt f o tg).testBit sq = true) : tg.testBit sq = true := by
  unfold captures at h
  exact (mem_land.mp h).2

theorem captures_lt {pt : PieceType} {f o tg : Nat} (htg : tg < 2 ^ 64) :
    captures pt f o tg < 2 ^ 64 := by
  unfold captures
  exact Nat.and_lt_two_pow _ htg

/-- When the in-hand piece exists, `next_states` is the image of `mkSucc` over
the capturable squares. -/
theorem next_states_eq {p : Puzzle} {s : Nat} {pt : PieceType}
    (hpt : p.piece_types.getD (PuzzleState.current_piece_idx s) none = some pt) :
    PuzzleState.next_states p s =
      (bitIndices (captures pt
        ((1 <<< p.piece_locs.getD (PuzzleState.current_piece_idx s) 255) % 2 ^ 64)
        p.obstacles (targetsOf p s))).map (mkSucc p s) := by
  simp only [PuzzleState.next_states, hpt]

/-- Number of pieces still to capture in a state. -/
def popRem (s : Nat) : Nat := bitCard (PuzzleState.remaining_captures s)

/-- Core transition lemma: a successor of an invariant state captures exactly
one remaining piece `j`, puts `j` in hand, clears bit `j`, and keeps the
invariant. -/
theorem next_states_mem {p : Puzzle} {s t : Nat} (hv : p.Valid) (hs : StateInv p s)
    (ht : t ∈ PuzzleState.next_states p s) :
    ∃ j, j < numPieces p ∧
      (PuzzleState.remaining_captures s).testBit j = true ∧
      PuzzleState.current_piece_idx t = j ∧
      (∀ i, (PuzzleState.remaining_captures t).testBit i =
        ((PuzzleState.remaining_captures s).testBit i && !(decide (i = j)))) ∧
      StateInv p t := by
  obtain ⟨hlen1, hlen2, hlen3, hobs, hn27, hps, hpieces, habsent, hinv⟩ := hv
  obtain ⟨hcur, hcurbit, hbits, hslt⟩ := hs
  obtain ⟨pt, hpt⟩ : ∃ pt,
      p.piece_types.getD (PuzzleState.current_piece_idx s) none = some pt := by
    have h := (hpieces _ hcur).2.1
    cases hh : p.piece_types.getD (PuzzleState.current_piece_idx s) none
    · rw [hh] at h
      simp at h
    · exact ⟨_, rfl⟩
  rw [next_states_eq hpt] at ht
  obtain ⟨sq, hsq, hmk⟩ := List.mem_map.mp ht
  have hcap := (mem_bitIndices.mp hsq).1
  have htg : (targetsOf p s).testBit sq = true := captures_subset_targets hcap
  obtain ⟨j, hjrem, hjsq⟩ := testBit_targetsOf.mp htg
  have hjn : j < numPieces p := hbits j (rem_testBit_lt hjrem) hjrem
  have hlocj : p.piece_locs.getD j 255 < 64 := (hpieces j hjn).1
  have hsq_eq : sq = p.piece_locs.getD j 255 := by
    rw [shl_one_mod64 hlocj, Nat.testBit_two_pow] at hjsq
    exact (of_decide_eq_true hjsq).symm
  have hbyloc : p.pieces_by_loc.getD sq 255 = j := by
    rw [hsq_eq]
    exact (hpieces j hjn).2.2
  have hj32 : j < 32 := by omega
  have hremlt := remaining_lt s
  have hmk2 : t = (PuzzleState.remaining_captures s &&& compl32 ((1 <<< j) % 2 ^ 32)) |||
      ((j <<< 27) % 2 ^ 32) := by
    rw [← hmk]
    unfold mkSucc
    rw [hbyloc]
  have halt : PuzzleState.remaining_captures s &&& compl32 ((1 <<< j) % 2 ^ 32) < 2 ^ 27 :=
    lt_of_le_of_lt Nat.and_le_left hremlt
  have hcur_t : PuzzleState.current_piece_idx t = j := by
    rw [hmk2]
    exact pack_current halt hj32
  have hrem_t : PuzzleState.remaining_captures t =
      PuzzleState.remaining_captures s &&& compl32 ((1 <<< j) % 2 ^ 32) := by
    rw [hmk2]
    exact pack_remaining halt
  have hbit_t : ∀ i, (PuzzleState.remaining_captures t).testBit i =
      ((PuzzleState.remaining_captures s).testBit i && !(decide (i = j))) := by
    intro i
    rw [hrem_t]
    exact testBit_clearBit hremlt hj32 i
  refine ⟨j, hjn, hjrem, hcur_t, hbit_t, ?_, ?_, ?_, ?_⟩
  · rw [hcur_t]
    exact hjn
  · rw [hcur_t, hbit_t j]
    simp
  · intro i hi27 hbi
    rw [hbit_t i, Bool.and_eq_true] at hbi
    exact hbits i hi27 hbi.1
  · rw [hmk2]
    exact Nat.or_lt_two_pow (lt_of_lt_of_le halt (by norm_num)) (Nat.mod_lt _ (by norm_num))

/-- Converse direction: every capturable square yields its successor. -/
theorem mkSucc_mem_next_states {p : Puzzle} {s sq : Nat} {pt : PieceType}
    (hpt : p.piece_types.getD (PuzzleState.current_piece_idx s) none = some pt)
    (hsq : (captures pt
      ((1 <<< p.piece_locs.getD (PuzzleState.current_piece_idx s) 255) % 2 ^ 64)
      p.obstacles (targetsOf p s)).testBit sq = true) :
    mkSucc p s sq ∈ PuzzleState.next_states p s := by
  rw [next_states_eq hpt]
  apply List.mem_map_of_mem
  exact mem_bitIndices.mpr ⟨hsq, lt_64_of_testBit (captures_lt (targetsOf_lt p s)) hsq⟩

/-- The successor's remaining count is one less. -/
theorem popRem_succ {s t j : Nat}
    (hjrem : (PuzzleState.remaining_captures s).testBit j = true)
    (hbit_t : ∀ i, (PuzzleState.remaining_captures t).testBit i =
      ((PuzzleState.remaining_captures s).testBit i && !(decide (i = j)))) :
    popRem t + 1 = popRem s := by
  unfold popRem bitCard
  have hset : (Finset.range 64).filter
        (fun i => (PuzzleState.remaining_captures t).testBit i = true) =
      ((Finset.range 64).filter
        (fun i => (PuzzleState.remaining_captures s).testBit i = true)).erase j := by
    ext i
    simp only [Finset.mem_filter, Finset.mem_range, Finset.mem_erase, hbit_t i,
      Bool.and_eq_true, Bool.not_eq_true', decide_eq_false_iff_not]
    constructor
    · rintro ⟨h1, h2, h3⟩
      exact ⟨by simpa using h3, h1, h2⟩
    · rintro ⟨h1, h2, h3⟩
      exact ⟨h2, h3, by simpa using h1⟩
  rw [hset]
  have hjm : j ∈ (Finset.range 64).filter
      (fun i => (PuzzleState.remaining_captures s).testBit i = true) := by
    simp only [Finset.mem_filter, Finset.mem_range]
    exact ⟨by have := rem_testBit_lt hjrem; omega, hjrem⟩
  rw [Finset.card_erase_of_mem hjm]
  have : 0 < ((Finset.range 64).filter
      (fun i => (PuzzleState.remaining_captures s).testBit i = true)).card :=
    Finset.card_pos.mpr ⟨j, hjm⟩
  omega

/-! ## The initial state -/

theorem initial_spec {p : Puzzle} (hv : p.Valid) :
    PuzzleState.current_piece_idx (PuzzleState.initial p) = p.player_start ∧
      (∀ i, (PuzzleState.remaining_captures (PuzzleState.initial p)).testBit i =
        (decide (i < numPieces p) && !(decide (i = p.player_start)))) := by
  obtain ⟨-, -, -, -, hn27, hps, -, -, -⟩ := hv
  have hplayer32 : p.player_start < 32 := by omega
  simp only [PuzzleState.initial]
  rw [show (p.piece_locs.takeWhile (fun z => z != 255)).length = numPieces p from rfl]
  have h2n : (2 : Nat) ^ numPieces p ≤ 2 ^ 27 := Nat.pow_le_pow_right (by norm_num) hn27
  have h1 : ((1 <<< numPieces p) - 1) % 2 ^ 32 = 2 ^ numPieces p - 1 := by
    rw [Nat.one_shiftLeft]
    exact Nat.mod_eq_of_lt (by norm_num at h2n ⊢; omega)
  rw [h1]
  have hsub : (2 : Nat) ^ numPieces p - 1 < 2 ^ 27 := by
    norm_num at h2n ⊢
    omega
  have halt : (2 ^ numPieces p - 1) &&& compl32 ((1 <<< p.player_start) % 2 ^ 32) < 2 ^ 27 :=
    lt_of_le_of_lt Nat.and_le_left hsub
  constructor
  · exact pack_current halt hplayer32
  · intro i
    rw [pack_remaining halt, testBit_clearBit hsub hplayer32 i,
      Nat.testBit_two_pow_sub_one]

theorem initial_lt {p : Puzzle} : PuzzleState.initial p < 2 ^ 32 := by
  unfold PuzzleState.initial
  exact Nat.or_lt_two_pow (lt_of_le_of_lt Nat.and_le_left (Nat.mod_lt _ (by norm_num)))
    (Nat.mod_lt _ (by norm_num))

theorem initial_StateInv {p : Puzzle} (hv : p.Valid) : StateInv p (PuzzleState.initial p) := by
  obtain ⟨hcur, hbit⟩ := initial_spec hv
  have hps : p.player_start < numPieces p := hv.2.2.2.2.2.1
  refine ⟨?_, ?_, ?_, initial_lt⟩
  · rw [hcur]
    exact hps
  · rw [hcur, hbit p.player_start]
    simp
  · intro j _ hj
    rw [hbit j, Bool.and_eq_true, decide_eq_true_eq] at hj
    exact hj.1

theorem done_iff_popRem {s : Nat} : PuzzleState.done s = true ↔ popRem s = 0 := by
  unfold PuzzleState.done popRem
  rw [beq_iff_eq]
  constructor
  · intro h
    unfold bitCard
    rw [h]
    simp
  · intro h
    exact bitCard_eq_zero (lt_of_lt_of_le (remaining_lt s) (by norm_num)) h

theorem popRem_initial {p : Puzzle} (hv : p.Valid) :
    popRem (PuzzleState.initial p) = numPieces p - 1 := by
  obtain ⟨-, hbit⟩ := initial_spec hv
  have hps : p.player_start < numPieces p := hv.2.2.2.2.2.1
  have hn27 : numPieces p ≤ 27 := hv.2.2.2.2.1
  unfold popRem bitCard
  have hset : (Finset.range 64).filter
        (fun i => (PuzzleState.remaining_captures (PuzzleState.initial p)).testBit i = true) =
      (Finset.range (numPieces p)).erase p.player_start := by
    ext i
    simp only [Finset.mem_filter, Finset.mem_range, Finset.mem_erase, hbit i,
      Bool.and_eq_true, Bool.not_eq_true', decide_eq_false_iff_not, decide_eq_true_eq]
    constructor
    · rintro ⟨h1, h2, h3⟩
      exact ⟨h3, h2⟩
    · rintro ⟨h1, h2⟩
      exact ⟨by omega, h2, h1⟩
  rw [hset, Finset.card_erase_of_mem (Finset.mem_range.mpr hps), Finset.card_range]

/-! ## Path lemmas -/

theorem pathTo_spec {p : Puzzle} (hv : p.Valid) :
    ∀ {s l u}, PathTo p s l u → StateInv p s →
      StateInv p u ∧
      (∀ j ∈ l, (PuzzleState.remaining_captures s).testBit j = true) ∧
      l.Nodup ∧
      (∀ i, (PuzzleState.remaining_captures u).testBit i =
        ((PuzzleState.remaining_captures s).testBit i && !(decide (i ∈ l)))) := by
  intro s l u hpath
  induction hpath with
  | refl s =>
    intro hs
    refine ⟨hs, by simp, List.nodup_nil, ?_⟩
    intro i
    simp
  | cons s t u l hstep hrest ih =>
    intro hs
    obtain ⟨j, hjn, hjrem, hcur_t, hbit_t, hinv_t⟩ := next_states_mem hv hs hstep
    obtain ⟨hinv_u, hmem, hnodup, hbits_u⟩ := ih hinv_t
    rw [hcur_t]
    have hjl : j ∉ l := by
      intro hjin
      have := hmem j hjin
      rw [hbit_t j] at this
      simp at this
    refine ⟨hinv_u, ?_, List.nodup_cons.mpr ⟨hjl, hnodup⟩, ?_⟩
    · intro i hi
      rcases List.mem_cons.mp hi with rfl | hi2
      · exact hjrem
      · have := hmem i hi2
        rw [hbit_t i, Bool.and_eq_true] at this
        exact this.1
    · intro i
      rw [hbits_u i, hbit_t i]
      by_cases h1 : i = j <;> by_cases h2 : i ∈ l <;>
        simp [h1, h2, List.mem_cons]

theorem pathTo_length {p : Puzzle} (hv : p.Valid) {s u : Nat} {l : List Nat}
    (hpath : PathTo p s l u) (hs : StateInv p s) :
    popRem u + l.length = popRem s := by
  obtain ⟨-, hmem, hnodup, hbits⟩ := pathTo_spec hv hpath hs
  unfold popRem bitCard
  have hset : (Finset.range 64).filter
        (fun i => (PuzzleState.remaining_captures u).testBit i = true) =
      ((Finset.range 64).filter
        (fun i => (PuzzleState.remaining_captures s).testBit i = true)) \ l.toFinset := by
    ext i
    simp only [Finset.mem_filter, Finset.mem_range, Finset.mem_sdiff, hbits i,
      Bool.and_eq_true, Bool.not_eq_true', decide_eq_false_iff_not, List.mem_toFinset]
    constructor
    · rintro ⟨h1, h2, h3⟩
      exact ⟨⟨h1, h2⟩, h3⟩
    · rintro ⟨⟨h1, h2⟩, h3⟩
      exact ⟨h1, h2, h3⟩
  have hsub : l.toFinset ⊆ (Finset.range 64).filter
      (fun i => (PuzzleState.remaining_captures s).testBit i = true) := by
    intro i hi
    rw [List.mem_toFinset] at hi
    simp only [Finset.mem_filter, Finset.mem_range]
    exact ⟨by have := rem_testBit_lt (hmem i hi); omega, hmem i hi⟩
  rw [hset, Finset.card_sdiff hsub, List.toFinset_card_of_nodup hnodup]
  have := Finset.card_le_card hsub
  rw [List.toFinset_card_of_nodup hnodup] at this
  omega

/-! ## Concrete puzzles used as witnesses and counterexamples -/

/-- Scenario B of the spec: rook on a1 (piece 0), pawn on a8 (piece 1),
player starts on the rook, one obstacle on a4 (square 24). -/
def puzzleB : Puzzle :=
  { obstacles := 1 <<< 24
    piece_types := [some PieceType.rook, some PieceType.pawn] ++ List.replicate 30 none
    piece_locs := [0, 56] ++ List.replicate 30 255
    pieces_by_loc :=
      (List.range 64).map (fun sq => if sq = 0 then 0 else if sq = 56 then 1 else 255)
    player_start := 0 }

/-- A puzzle whose only piece is the player's rook on a1. -/
def puzzleOne : Puzzle :=
  { obstacles := 0
    piece_types := [some PieceType.rook] ++ List.replicate 31 none
    piece_locs := [0] ++ List.replicate 31 255
    pieces_by_loc := (List.range 64).map (fun sq => if sq = 0 then 0 else 255)
    player_start := 0 }

/-- C4: every progress state reachable from the initial state of a valid
puzzle has the in-hand piece's bit clear in the remaining mask, the in-hand
index referring to an existing piece (the `panic!` branch of `next_states` is
unreachable), and `done` holding exactly when the remaining mask is zero. -/
theorem reachable_state_invariant (p : Puzzle) (hv : p.Valid) (l : List Nat) (s : Nat)
    (hpath : PathTo p (PuzzleState.initial p) l s) :
    (PuzzleState.remaining_captures s).testBit (PuzzleState.current_piece_idx s) = false ∧
      ¬nextStatesPanics p s ∧
      (PuzzleState.done s = true ↔ PuzzleState.remaining_captures s = 0) := by
  have hs := (pathTo_spec hv hpath (initial_StateInv hv)).1
  refine ⟨hs.2.1, ?_, ?_⟩
  · have hsome := (hv.2.2.2.2.2.2.1 _ hs.1).2.1
    intro hnone
    unfold nextStatesPanics at hnone
    rw [hnone] at hsome
    simp at hsome
  · unfold PuzzleState.done
    rw [beq_iff_eq]

theorem reachable_state_invariant_witness :
    (PuzzleState.remaining_captures (PuzzleState.initial puzzleB)).testBit
        (PuzzleState.current_piece_idx (PuzzleState.initial puzzleB)) = false ∧
      ¬nextStatesPanics puzzleB (PuzzleState.initial puzzleB) ∧
      (PuzzleState.done (PuzzleState.initial puzzleB) = true ↔
        PuzzleState.remaining_captures (PuzzleState.initial puzzleB) = 0) :=
  reachable_state_invariant puzzleB (by decide) [] (PuzzleState.initial puzzleB)
    (PathTo.refl _)

/-- The successor built for a capturable square: its in-hand index is the
occupying piece, and its remaining mask is the old one with that bit cleared. -/
theorem mkSucc_spec {p : Puzzle} {s sq : Nat} (hv : p.Valid) (hs : StateInv p s)
    (htg : (targetsOf p s).testBit sq = true) :
    p.piece_locs.getD (p.pieces_by_loc.getD sq 255) 255 = sq ∧
      p.pieces_by_loc.getD sq 255 < numPieces p ∧
      (PuzzleState.remaining_captures s).testBit (p.pieces_by_loc.getD sq 255) = true ∧
      PuzzleState.current_piece_idx (mkSucc p s sq) = p.pieces_by_loc.getD sq 255 ∧
      (∀ i, (PuzzleState.remaining_captures (mkSucc p s sq)).testBit i =
        ((PuzzleState.remaining_captures s).testBit i &&
          !(decide (i = p.pieces_by_loc.getD sq 255)))) := by
  obtain ⟨hlen1, hlen2, hlen3, hobs, hn27, hps, hpieces, habsent, hinv⟩ := hv
  obtain ⟨hcur, hcurbit, hbits, hslt⟩ := hs
  obtain ⟨j, hjrem, hjsq⟩ := testBit_targetsOf.mp htg
  have hjn : j < numPieces p := hbits j (rem_testBit_lt hjrem) hjrem
  have hlocj : p.piece_locs.getD j 255 < 64 := (hpieces j hjn).1
  have hsq_eq : sq = p.piece_locs.getD j 255 := by
    rw [shl_one_mod64 hlocj, Nat.testBit_two_pow] at hjsq
    exact (of_decide_eq_true hjsq).symm
  have hbyloc : p.pieces_by_loc.getD sq 255 = j := by
    rw [hsq_eq]
    exact (hpieces j hjn).2.2
  have hj32 : j < 32 := by omega
  have hremlt := remaining_lt s
  have hmk2 : mkSucc p s sq =
      (PuzzleState.remaining_captures s &&& compl32 ((1 <<< j) % 2 ^ 32)) |||
        ((j <<< 27) % 2 ^ 32) := by
    unfold mkSucc
    rw [hbyloc]
  have halt : PuzzleState.remaining_captures s &&& compl32 ((1 <<< j) % 2 ^ 32) < 2 ^ 27 :=
    lt_of_le_of_lt Nat.and_le_left hremlt
  rw [hbyloc]
  refine ⟨by rw [← hsq_eq], hjn, hjrem, ?_, ?_⟩
  · rw [hmk2]
    exact pack_current halt hj32
  · intro i
    rw [hmk2, pack_remaining halt]
    exact testBit_clearBit hremlt hj32 i

/-- C5: for a valid puzzle and an invariant state whose in-hand piece has
kind `pt`, the successor list is exactly one state per square of
`captures pt {player square} obstacles targets` (where `targets` is the union
of the squares of the remaining pieces), without duplicates, and the
successor for a square occupied by piece `j` has in-hand index `j` and the
old remaining mask with bit `j` cleared. -/
theorem next_states_exact (p : Puzzle) (s : Nat) (pt : PieceType) (hv : p.Valid)
    (hs : StateInv p s)
    (hpt : p.piece_types.getD (PuzzleState.current_piece_idx s) none = some pt) :
    (∀ t, t ∈ PuzzleState.next_states p s ↔
      ∃ sq, (captures pt
          ((1 <<< p.piece_locs.getD (PuzzleState.current_piece_idx s) 255) % 2 ^ 64)
          p.obstacles (targetsOf p s)).testBit sq = true ∧
        t = mkSucc p s sq) ∧
    (PuzzleState.next_states p s).Nodup ∧
    (∀ sq, (targetsOf p s).testBit sq = true ↔
      ∃ j, (PuzzleState.remaining_captures s).testBit j = true ∧
        p.piece_locs.getD j 255 = sq) ∧
    (∀ sq, (captures pt
        ((1 <<< p.piece_locs.getD (PuzzleState.current_piece_idx s) 255) % 2 ^ 64)
        p.obstacles (targetsOf p s)).testBit sq = true →
      PuzzleState.current_piece_idx (mkSucc p s sq) = p.pieces_by_loc.getD sq 255 ∧
      (∀ i, (PuzzleState.remaining_captures (mkSucc p s sq)).testBit i =
        ((PuzzleState.remaining_captures s).testBit i &&
          !(decide (i = p.pieces_by_loc.getD sq 255))))) := by
  have hcaplt : captures pt
      ((1 <<< p.piece_locs.getD (PuzzleState.current_piece_idx s) 255) % 2 ^ 64)
      p.obstacles (targetsOf p s) < 2 ^ 64 := captures_lt (targetsOf_lt p s)
  refine ⟨?_, ?_, ?_, ?_⟩
  · intro t
    rw [next_states_eq hpt]
    constructor
    · intro ht
      obtain ⟨sq, hsq, hmk⟩ := List.mem_map.mp ht
      exact ⟨sq, (mem_bitIndices.mp hsq).1, hmk.symm⟩
    · rintro ⟨sq, hsq, rfl⟩
      exact List.mem_map_of_mem _ (mem_bitIndices.mpr ⟨hsq, lt_64_of_testBit hcaplt hsq⟩)
  · rw [next_states_eq hpt]
    refine List.Nodup.map_on ?_ (bitIndices_nodup _)
    intro sq hsq sq2 hsq2 heq
    have h1 := mkSucc_spec hv hs (captures_subset_targets (mem_bitIndices.mp hsq).1)
    have h2 := mkSucc_spec hv hs (captures_subset_targets (mem_bitIndices.mp hsq2).1)
    have hj : p.pieces_by_loc.getD sq 255 = p.pieces_by_loc.getD sq2 255 := by
      rw [← h1.2.2.2.1, ← h2.2.2.2.1, heq]
    calc sq = p.piece_locs.getD (p.pieces_by_loc.getD sq 255) 255 := h1.1.symm
      _ = p.piece_locs.getD (p.pieces_by_loc.getD sq2 255) 255 := by rw [hj]
      _ = sq2 := h2.1
  · intro sq
    rw [testBit_targetsOf]
    constructor
    · rintro ⟨j, hj, hji⟩
      have hjn : j < numPieces p := hs.2.2.1 j (rem_testBit_lt hj) hj
      have hlocj : p.piece_locs.getD j 255 < 64 := (hv.2.2.2.2.2.2.1 j hjn).1
      rw [shl_one_mod64 hlocj, Nat.testBit_two_pow] at hji
      exact ⟨j, hj, of_decide_eq_true hji⟩
    · rintro ⟨j, hj, hji⟩
      have hjn : j < numPieces p := hs.2.2.1 j (rem_testBit_lt hj) hj
      have hlocj : p.piece_locs.getD j 255 < 64 := (hv.2.2.2.2.2.2.1 j hjn).1
      refine ⟨j, hj, ?_⟩
      rw [shl_one_mod64 hlocj, Nat.testBit_two_pow]
      exact decide_eq_true hji
  · intro sq hsq
    have h1 := mkSucc_spec hv hs (captures_subset_targets hsq)
    exact ⟨h1.2.2.2.1, h1.2.2.2.2⟩

theorem next_states_exact_witness :
    (∀ t, t ∈ PuzzleState.next_states puzzleB (PuzzleState.initial puzzleB) ↔
      ∃ sq, (captures PieceType.rook
          ((1 <<< puzzleB.piece_locs.getD
            (PuzzleState.current_piece_idx (PuzzleState.initial puzzleB)) 255) % 2 ^ 64)
          puzzleB.obstacles (targetsOf puzzleB (PuzzleState.initial puzzleB))).testBit sq =
            true ∧
        t = mkSucc puzzleB (PuzzleState.initial puzzleB) sq) ∧
    (PuzzleState.next_states puzzleB (PuzzleState.initial puzzleB)).Nodup ∧
    (∀ sq, (targetsOf puzzleB (PuzzleState.initial puzzleB)).testBit sq = true ↔
      ∃ j, (PuzzleState.remaining_captures (PuzzleState.initial puzzleB)).testBit j = true ∧
        puzzleB.piece_locs.getD j 255 = sq) ∧
    (∀ sq, (captures PieceType.rook
        ((1 <<< puzzleB.piece_locs.getD
          (PuzzleState.current_piece_idx (PuzzleState.initial puzzleB)) 255) % 2 ^ 64)
        puzzleB.obstacles (targetsOf puzzleB (PuzzleState.initial puzzleB))).testBit sq =
          true →
      PuzzleState.current_piece_idx (mkSucc puzzleB (PuzzleState.initial puzzleB) sq) =
        puzzleB.pieces_by_loc.getD sq 255 ∧
      (∀ i, (PuzzleState.remaining_captures
          (mkSucc puzzleB (PuzzleState.initial puzzleB) sq)).testBit i =
        ((PuzzleState.remaining_captures (PuzzleState.initial puzzleB)).testBit i &&
          !(decide (i = puzzleB.pieces_by_loc.getD sq 255))))) :=
  next_states_exact puzzleB (PuzzleState.initial puzzleB) PieceType.rook
    (by decide) (by decide) (by decide)

/-! ## C10: a puzzle with only the player's piece -/

theorem bitIndices_zero : bitIndices 0 = [] := by decide

theorem captures_targets_zero (pt : PieceType) (f o : Nat) : captures pt f o 0 = 0 := by
  unfold captures
  exact Nat.and_zero _

theorem next_states_of_rem_zero {p : Puzzle} {s : Nat}
    (hrem : PuzzleState.remaining_captures s = 0) :
    PuzzleState.next_states p s = [] := by
  have htg : targetsOf p s = 0 := by
    unfold targetsOf
    rw [hrem, bitIndices_zero]
    rfl
  simp only [PuzzleState.next_states, htg]
  cases hh : p.piece_types.getD (PuzzleState.current_piece_idx s) none
  · rfl
  · simp only [captures_targets_zero, bitIndices_zero, List.map_nil]

theorem solveLoop_nil (p : Puzzle) (fuel : Nat) (preds : List (Nat × Nat)) :
    solveLoop p fuel preds [] = none := by
  cases fuel
  · rfl
  · rfl

theorem solveLoop_no_succ (p : Puzzle) (fuel : Nat) (preds : List (Nat × Nat)) (s : Nat)
    (hns : PuzzleState.next_states p s = []) :
    solveLoop p (fuel + 1) preds [s] = solveLoop p fuel preds [] := by
  have h2 : solveFrontier p [s] preds [] = (preds, [], none) := by
    unfold solveFrontier
    rw [hns]
    rfl
  simp only [solveLoop, h2]
  rfl

/-- C10: if the puzzle's only piece is the player's own piece, the initial
state is already terminal (`done` holds), yet `solve` returns `none` rather
than `some []`, because only states produced as successors are tested for
being terminal. -/
theorem solve_none_when_only_player (p : Puzzle) (hv : p.Valid) (h1 : numPieces p = 1) :
    PuzzleState.done (PuzzleState.initial p) = true ∧ solve p = none := by
  have hpop : popRem (PuzzleState.initial p) = 0 := by
    rw [popRem_initial hv, h1]
  have hdone := done_iff_popRem.mpr hpop
  have hrem : PuzzleState.remaining_captures (PuzzleState.initial p) = 0 := by
    unfold PuzzleState.done at hdone
    rw [beq_iff_eq] at hdone
    exact hdone
  refine ⟨hdone, ?_⟩
  have hns := next_states_of_rem_zero (p := p) hrem
  unfold solve
  rw [show (33 : Nat) = 32 + 1 from rfl, solveLoop_no_succ p 32 [] _ hns, solveLoop_nil]

theorem solve_none_when_only_player_witness :
    PuzzleState.done (PuzzleState.initial puzzleOne) = true ∧ solve puzzleOne = none :=
  solve_none_when_only_player puzzleOne (by decide) (by decide)

/-- C3 counterexample: on the Scenario B puzzle (rook a1, pawn a8, obstacle
a4) the solver does not report "no solution" — the rook reaches the pawn by
sliding around the obstacle through file b. -/
theorem scenarioB_not_unsolvable : solve puzzleB ≠ none := by decide

/-- C3 (amended): on the Scenario B puzzle, `solve` returns the one-capture
solution `[1]` (capture the pawn, piece index 1). -/
theorem scenarioB_solved_by_single_capture : solve puzzleB = some [1] := by decide

/-! ## C6: the compound-FEN parser

`Puzzle::from_compound_fen` panics on invalid input; the embedding returns
`none` exactly on the panicking executions (debug semantics for the `y -= 1`
underflow and the `1 << loc` shift-overflow, index-out-of-bounds otherwise).
-/

/-- The character-consuming loop of `from_compound_fen`.  State: obstacle
set, piece kind per square, designated player square, current rank `y` and
file `x`. -/
def fenLoop : List Char → Nat → List (Option PieceType) → Option Nat → Nat → Nat →
    Option (Nat × List (Option PieceType) × Option Nat)
  | [], obstacles, ptl, player_loc, _, _ => some (obstacles, ptl, player_loc)
  | c :: rest, obstacles, ptl, player_loc, y, x =>
    if c = '/' then
      if y = 0 then none
      else fenLoop rest obstacles ptl player_loc (y - 1) 0
    else if '0' ≤ c ∧ c ≤ '9' then
      fenLoop rest obstacles ptl player_loc y (x + (c.toNat - '0'.toNat))
    else
      let loc := 8 * y + x
      if 64 ≤ loc then none
      else if c = 'X' ∨ c = 'x' then
        fenLoop rest (obstacles ||| (1 <<< loc)) ptl player_loc y (x + 1)
      else
        let pk : Option PieceType :=
          if c = 'P' ∨ c = 'p' then some PieceType.pawn
          else if c = 'B' ∨ c = 'b' then some PieceType.bishop
          else if c = 'R' ∨ c = 'r' then some PieceType.rook
          else if c = 'N' ∨ c = 'n' then some PieceType.knight
          else if c = 'K' ∨ c = 'k' ∨ c = 'Q' ∨ c = 'q' then some PieceType.monarch
          else none
        match pk with
        | none => none
        | some k =>
          let pl2 := if c = 'P' ∨ c = 'B' ∨ c = 'R' ∨ c = 'K' ∨ c = 'Q' ∨ c = 'N' then
              some loc
            else player_loc
          fenLoop rest obstacles (ptl.set loc (some k)) pl2 y (x + 1)

/-- Source `Puzzle::from_compound_fen`: parse the notation, then assign piece
indices in ascending square order, failing on the 33rd piece (array index out
of bounds in the source; the spec wants a cap of 27). -/
def from_compound_fen (fen : List Char) : Option Puzzle :=
  match fenLoop fen 0 (List.replicate 64 none) none 7 0 with
  | none => none
  | some (obstacles, ptl, player_loc) =>
    match player_loc with
    | none => none
    | some ploc =>
      let res := (List.range 64).foldl (fun acc loc =>
        match acc with
        | none => none
        | some (pz, piece_idx) =>
          match ptl.getD loc none with
          | none => some (pz, piece_idx)
          | some k =>
            if 32 ≤ piece_idx then none
            else some ({ pz with
                piece_types := pz.piece_types.set piece_idx (some k),
                piece_locs := pz.piece_locs.set piece_idx loc,
                pieces_by_loc := pz.pieces_by_loc.set loc piece_idx,
                player_start := if loc = ploc then piece_idx else pz.player_start },
              piece_idx + 1))
        (some ({ obstacles := obstacles, piece_types := List.replicate 32 none,
                 piece_locs := List.replicate 32 255,
                 pieces_by_loc := List.replicate 64 255,
                 player_start := 0xff }, 0))
      match res with
      | none => none
      | some (pz, _) => some pz

/-- A compound FEN with 28 pieces (27 opposing pawns and the player's pawn)
and exactly one designated player piece. -/
def fen28 : List Char := "pppppppp/pppppppp/pppppppp/ppp5/8/8/8/7P".toList

/-- C6: the parser accepts a 28-piece input without any fatal error and
builds a puzzle with 28 pieces, although the claim (and the capacity of the
progress-state encoding) requires more than 27 pieces to be a fatal
construction error. -/
theorem from_compound_fen_accepts_28_pieces :
    (from_compound_fen fen28).map numPieces = some 28 := by decide

/-! ## BFS bookkeeping lemmas -/

/-- Keys (discovered states) of the predecessor list. -/
def keysOf (preds : List (Nat × Nat)) : List Nat := preds.map Prod.fst

theorem keysOf_cons (a b : Nat) (preds : List (Nat × Nat)) :
    keysOf ((a, b) :: preds) = a :: keysOf preds := rfl

theorem lookupA_mem {preds : List (Nat × Nat)} {k pr : Nat}
    (h : lookupA preds k = some pr) : (k, pr) ∈ preds := by
  induction preds with
  | nil => simp [lookupA] at h
  | cons e rest ih =>
    obtain ⟨a, b⟩ := e
    unfold lookupA at h
    by_cases hak : a = k
    · rw [if_pos hak] at h
      subst hak
      rw [Option.some.injEq] at h
      subst h
      exact List.mem_cons_self _ _
    · rw [if_neg hak] at h
      exact List.mem_cons_of_mem _ (ih h)

theorem lookupA_isSome {preds : List (Nat × Nat)} {k : Nat} (h : k ∈ keysOf preds) :
    ∃ pr, lookupA preds k = some pr := by
  induction preds with
  | nil => simp [keysOf] at h
  | cons e rest ih =>
    obtain ⟨a, b⟩ := e
    unfold lookupA
    by_cases hak : a = k
    · exact ⟨b, if_pos hak⟩
    · rw [keysOf_cons, List.mem_cons] at h
      rcases h with h | h
      · exact absurd h.symm hak
      · rw [if_neg hak]
        exact ih h

theorem lookupA_none {preds : List (Nat × Nat)} {k : Nat} (h : k ∉ keysOf preds) :
    lookupA preds k = none := by
  cases hl : lookupA preds k with
  | none => rfl
  | some pr => exact absurd (List.mem_map_of_mem Prod.fst (lookupA_mem hl)) h

theorem pathTo_snoc {p : Puzzle} {a b t : Nat} {l : List Nat}
    (hpath : PathTo p a l b) (hstep : t ∈ PuzzleState.next_states p b) :
    PathTo p a (l ++ [PuzzleState.current_piece_idx t]) t := by
  induction hpath with
  | refl s => exact PathTo.cons s t t [] hstep (PathTo.refl t)
  | cons s t1 u l h1 h2 ih => exact PathTo.cons s t1 t _ h1 (ih hstep)

/-- Full specification of `expandState`, for a running `d` that only ever
holds terminal states. -/
theorem expandState_spec (prev : Nat) :
    ∀ (l : List Nat) (preds : List (Nat × Nat)) (nf : List Nat) (d : Option Nat),
      (∀ fs, d = some fs → PuzzleState.done fs = true) →
      (∀ e ∈ (expandState prev l preds nf d).1, e ∈ preds ∨ (e.2 = prev ∧ e.1 ∈ l)) ∧
      (∀ k, k ∈ keysOf preds → k ∈ keysOf (expandState prev l preds nf d).1) ∧
      (∀ t ∈ l, t ∈ keysOf (expandState prev l preds nf d).1) ∧
      (∀ t ∈ (expandState prev l preds nf d).2.1, t ∈ nf ∨ t ∈ l) ∧
      (∀ t ∈ nf, t ∈ (expandState prev l preds nf d).2.1) ∧
      (∀ k ∈ keysOf (expandState prev l preds nf d).1,
        k ∈ keysOf preds ∨ k ∈ (expandState prev l preds nf d).2.1) ∧
      ((expandState prev l preds nf d).2.2 = none →
        d = none ∧ ∀ t ∈ l, PuzzleState.done t = false) ∧
      (∀ fs, (expandState prev l preds nf d).2.2 = some fs →
        PuzzleState.done fs = true ∧ (fs ∈ l ∨ d = some fs)) := by
  intro l
  induction l with
  | nil =>
    intro preds nf d hd
    refine ⟨fun e he => Or.inl he, fun k hk => hk, by simp, fun t ht => Or.inl ht,
      fun t ht => ht, fun k hk => Or.inl hk, fun h => ⟨h, by simp⟩, ?_⟩
    intro fs h
    exact ⟨hd fs h, Or.inr h⟩
  | cons next rest ih =>
    intro preds nf d hd
    have hd2 : ∀ fs, (if PuzzleState.done next then some next else d) = some fs →
        PuzzleState.done fs = true := by
      intro fs h
      by_cases hdn : PuzzleState.done next = true
      · rw [if_pos hdn, Option.some.injEq] at h
        subst h
        exact hdn
      · rw [if_neg hdn] at h
        exact hd fs h
    cases hlk : lookupA preds next with
    | some pr0 =>
      have heq : expandState prev (next :: rest) preds nf d =
          expandState prev rest preds nf (if PuzzleState.done next then some next else d) := by
        simp only [expandState, hlk]
      obtain ⟨e1, e2, e3, e4, e5, e6, e7, e8⟩ := ih preds nf
        (if PuzzleState.done next then some next else d) hd2
      rw [heq]
      refine ⟨?_, e2, ?_, ?_, e5, e6, ?_, ?_⟩
      · intro e he
        rcases e1 e he with h | ⟨h1, h2⟩
        · exact Or.inl h
        · exact Or.inr ⟨h1, List.mem_cons_of_mem _ h2⟩
      · intro t ht
        rcases List.mem_cons.mp ht with rfl | ht2
        · exact e2 t (List.mem_map_of_mem Prod.fst (lookupA_mem hlk))
        · exact e3 t ht2
      · intro t ht
        rcases e4 t ht with h | h
        · exact Or.inl h
        · exact Or.inr (List.mem_cons_of_mem _ h)
      · intro h
        obtain ⟨h1, h2⟩ := e7 h
        by_cases hdn : PuzzleState.done next = true
        · rw [if_pos hdn] at h1
          simp at h1
        · rw [if_neg hdn] at h1
          rw [Bool.not_eq_true] at hdn
          refine ⟨h1, ?_⟩
          intro t ht
          rcases List.mem_cons.mp ht with rfl | ht2
          · exact hdn
          · exact h2 t ht2
      · intro fs h
        obtain ⟨h1, h2⟩ := e8 fs h
        refine ⟨h1, ?_⟩
        rcases h2 with h2 | h2
        · exact Or.inl (List.mem_cons_of_mem _ h2)
        · by_cases hdn : PuzzleState.done next = true
          · rw [if_pos hdn, Option.some.injEq] at h2
            subst h2
            exact Or.inl (List.mem_cons_self _ _)
          · rw [if_neg hdn] at h2
            exact Or.inr h2
    | none =>
      have heq : expandState prev (next :: rest) preds nf d =
          expandState prev rest ((next, prev) :: preds) (next :: nf)
            (if PuzzleState.done next then some next else d) := by
        simp only [expandState, hlk]
      obtain ⟨e1, e2, e3, e4, e5, e6, e7, e8⟩ := ih ((next, prev) :: preds) (next :: nf)
        (if PuzzleState.done next then some next else d) hd2
      rw [heq]
      refine ⟨?_, ?_, ?_, ?_, ?_, ?_, ?_, ?_⟩
      · intro e he
        rcases e1 e he with h | ⟨h1, h2⟩
        · rcases List.mem_cons.mp h with rfl | h3
          · exact Or.inr ⟨rfl, List.mem_cons_self _ _⟩
          · exact Or.inl h3
        · exact Or.inr ⟨h1, List.mem_cons_of_mem _ h2⟩
      · intro k hk
        exact e2 k (by rw [keysOf_cons]; exact List.mem_cons_of_mem _ hk)
      · intro t ht
        rcases List.mem_cons.mp ht with rfl | ht2
        · exact e2 t (by rw [keysOf_cons]; exact List.mem_cons_self _ _)
        · exact e3 t ht2
      · intro t ht
        rcases e4 t ht with h | h
        · rcases List.mem_cons.mp h with rfl | h2
          · exact Or.inr (List.mem_cons_self _ _)
          · exact Or.inl h2
        · exact Or.inr (List.mem_cons_of_mem _ h)
      · intro t ht
        exact e5 t (List.mem_cons_of_mem _ ht)
      · intro k hk
        rcases e6 k hk with h | h
        · rw [keysOf_cons, List.mem_cons] at h
          rcases h with rfl | h2
          · exact Or.inr (e5 k (List.mem_cons_self _ _))
          · exact Or.inl h2
        · exact Or.inr h
      · intro h
        obtain ⟨h1, h2⟩ := e7 h
        by_cases hdn : PuzzleState.done next = true
        · rw [if_pos hdn] at h1
          simp at h1
        · rw [if_neg hdn] at h1
          rw [Bool.not_eq_true] at hdn
          refine ⟨h1, ?_⟩
          intro t ht
          rcases List.mem_cons.mp ht with rfl | ht2
          · exact hdn
          · exact h2 t ht2
      · intro fs h
        obtain ⟨h1, h2⟩ := e8 fs h
        refine ⟨h1, ?_⟩
        rcases h2 with h2 | h2
        · exact Or.inl (List.mem_cons_of_mem _ h2)
        · by_cases hdn : PuzzleState.done next = true
          · rw [if_pos hdn, Option.some.injEq] at h2
            subst h2
            exact Or.inl (List.mem_cons_self _ _)
          · rw [if_neg hdn] at h2
            exact Or.inr h2

/-- Full specification of `solveFrontier`. -/
theorem solveFrontier_spec (p : Puzzle) :
    ∀ (frontier : List Nat) (preds : List (Nat × Nat)) (nf : List Nat),
      (∀ e ∈ (solveFrontier p frontier preds nf).1, e ∈ preds ∨
        (e.2 ∈ frontier ∧ e.1 ∈ PuzzleState.next_states p e.2)) ∧
      (∀ k, k ∈ keysOf preds → k ∈ keysOf (solveFrontier p frontier preds nf).1) ∧
      (∀ t ∈ (solveFrontier p frontier preds nf).2.1, t ∈ nf ∨
        (∃ pr ∈ frontier, t ∈ PuzzleState.next_states p pr ∧
          t ∈ keysOf (solveFrontier p frontier preds nf).1)) ∧
      (∀ t ∈ nf, t ∈ (solveFrontier p frontier preds nf).2.1) ∧
      (∀ k ∈ keysOf (solveFrontier p frontier preds nf).1,
        k ∈ keysOf preds ∨ k ∈ (solveFrontier p frontier preds nf).2.1) ∧
      ((solveFrontier p frontier preds nf).2.2 = none →
        ∀ pr ∈ frontier, ∀ t ∈ PuzzleState.next_states p pr,
          t ∈ keysOf (solveFrontier p frontier preds nf).1 ∧
            PuzzleState.done t = false) ∧
      (∀ fs, (solveFrontier p frontier preds nf).2.2 = some fs →
        PuzzleState.done fs = true ∧ fs ∈ keysOf (solveFrontier p frontier preds nf).1) := by
  intro frontier
  induction frontier with
  | nil =>
    intro preds nf
    refine ⟨fun e he => Or.inl he, fun k hk => hk, fun t ht => Or.inl ht, fun t ht => ht,
      fun k hk => Or.inl hk, ?_, ?_⟩
    · intro _ pr hpr
      simp at hpr
    · intro fs h
      simp [solveFrontier] at h
  | cons prev rest ih =>
    intro preds nf
    obtain ⟨e1, e2, e3, e4, e5, e6, e7, e8⟩ :=
      expandState_spec prev (PuzzleState.next_states p prev) preds nf none
        (fun fs h => by simp at h)
    obtain ⟨⟨preds2, nf2, dd⟩, hes⟩ :
        ∃ x, expandState prev (PuzzleState.next_states p prev) preds nf none = x := ⟨_, rfl⟩
    rw [hes] at e1 e2 e3 e4 e5 e6 e7 e8
    cases dd with
    | some fs =>
      have heq : solveFrontier p (prev :: rest) preds nf = (preds2, nf2, some fs) := by
        simp only [solveFrontier, hes]
      rw [heq]
      obtain ⟨hfs_done, hfs_in⟩ := e8 fs rfl
      have hfs_mem : fs ∈ PuzzleState.next_states p prev := by
        rcases hfs_in with h | h
        · exact h
        · simp at h
      refine ⟨?_, e2, ?_, e5, e6, ?_, ?_⟩
      · intro e he
        rcases e1 e he with h | ⟨h1, h2⟩
        · exact Or.inl h
        · exact Or.inr ⟨h1 ▸ List.mem_cons_self _ _, by rw [h1]; exact h2⟩
      · intro t ht
        rcases e4 t ht with h | h
        · exact Or.inl h
        · exact Or.inr ⟨prev, List.mem_cons_self _ _, h, e3 t h⟩
      · intro h
        simp at h
      · intro fs2 h
        rw [Option.some.injEq] at h
        subst h
        exact ⟨hfs_done, e3 _ hfs_mem⟩
    | none =>
      have heq : solveFrontier p (prev :: rest) preds nf = solveFrontier p rest preds2 nf2 := by
        simp only [solveFrontier, hes]
      obtain ⟨q1, q2, q3, q4, q5, q6, q7⟩ := ih preds2 nf2
      rw [heq]
      obtain ⟨-, hnotdone⟩ := e7 rfl
      refine ⟨?_, ?_, ?_, ?_, ?_, ?_, q7⟩
      · intro e he
        rcases q1 e he with h | ⟨h1, h2⟩
        · rcases e1 e h with h3 | ⟨h3, h4⟩
          · exact Or.inl h3
          · exact Or.inr ⟨h3 ▸ List.mem_cons_self _ _, by rw [h3]; exact h4⟩
        · exact Or.inr ⟨List.mem_cons_of_mem _ h1, h2⟩
      · intro k hk
        exact q2 k (e2 k hk)
      · intro t ht
        rcases q3 t ht with h | ⟨pr, hpr, hstep, hkeys⟩
        · rcases e4 t h with h2 | h2
          · exact Or.inl h2
          · exact Or.inr ⟨prev, List.mem_cons_self _ _, h2, q2 t (e3 t h2)⟩
        · exact Or.inr ⟨pr, List.mem_cons_of_mem _ hpr, hstep, hkeys⟩
      · intro t ht
        exact q4 t (e5 t ht)
      · intro k hk
        rcases q5 k hk with h | h
        · rcases e6 k h with h2 | h2
          · exact Or.inl h2
          · exact Or.inr (q4 k h2)
        · exact Or.inr h
      · intro h pr hpr t ht
        rcases List.mem_cons.mp hpr with rfl | hpr2
        · exact ⟨q2 t (e3 t ht), hnotdone t ht⟩
        · exact q6 h pr hpr2 t ht

/-- Every predecessor entry steps down one capture, and every discovered
state lies strictly below the initial state in remaining count. -/
theorem key_popRem {p : Puzzle} (hv : p.Valid) {preds : List (Nat × Nat)}
    (Hp : ∀ e ∈ preds, e.1 ∈ PuzzleState.next_states p e.2 ∧
      (∃ l, PathTo p (PuzzleState.initial p) l e.2)) :
    ∀ e ∈ preds, popRem e.1 + 1 = popRem e.2 ∧
      popRem e.1 < popRem (PuzzleState.initial p) := by
  intro e he
  obtain ⟨hstep, l0, hl0⟩ := Hp e he
  have hinv : StateInv p e.2 := (pathTo_spec hv hl0 (initial_StateInv hv)).1
  obtain ⟨j, hjn, hjrem, hcur, hbits, hinv2⟩ := next_states_mem hv hinv hstep
  have h1 : popRem e.1 + 1 = popRem e.2 := popRem_succ hjrem hbits
  have h2 : popRem e.2 + l0.length = popRem (PuzzleState.initial p) :=
    pathTo_length hv hl0 (initial_StateInv hv)
  exact ⟨h1, by omega⟩

theorem init_not_key {p : Puzzle} (hv : p.Valid) {preds : List (Nat × Nat)}
    (Hp : ∀ e ∈ preds, e.1 ∈ PuzzleState.next_states p e.2 ∧
      (∃ l, PathTo p (PuzzleState.initial p) l e.2)) :
    PuzzleState.initial p ∉ keysOf preds := by
  intro h
  obtain ⟨e, he, het⟩ := List.mem_map.mp h
  have := (key_popRem hv Hp e he).2
  rw [het] at this
  omega

/-- Unwinding the predecessor chain from a discovered state produces a path
from the initial state capturing the listed pieces. -/
theorem unwind_spec {p : Puzzle} (hv : p.Valid) {preds : List (Nat × Nat)}
    (Hp : ∀ e ∈ preds, e.1 ∈ PuzzleState.next_states p e.2 ∧
      (∃ l, PathTo p (PuzzleState.initial p) l e.2) ∧
      (e.2 = PuzzleState.initial p ∨ e.2 ∈ keysOf preds)) :
    ∀ fuel t, t ∈ keysOf preds →
      popRem (PuzzleState.initial p) < popRem t + fuel →
      PathTo p (PuzzleState.initial p) (unwind preds fuel t).reverse t := by
  have Hp2 : ∀ e ∈ preds, e.1 ∈ PuzzleState.next_states p e.2 ∧
      (∃ l, PathTo p (PuzzleState.initial p) l e.2) :=
    fun e he => ⟨(Hp e he).1, (Hp e he).2.1⟩
  have hkey := key_popRem hv Hp2
  have hinitnk := init_not_key hv Hp2
  intro fuel
  induction fuel with
  | zero =>
    intro t ht hpop
    obtain ⟨e, he, het⟩ := List.mem_map.mp ht
    have := (hkey e he).2
    rw [het] at this
    omega
  | succ fuel ihf =>
    intro t ht hpop
    obtain ⟨pr, hlk⟩ := lookupA_isSome ht
    have hent := lookupA_mem hlk
    obtain ⟨hstep, ⟨l0, hl0⟩, hpr_or⟩ := Hp (t, pr) hent
    have hpoppair := hkey (t, pr) hent
    have hunw : unwind preds (fuel + 1) t =
        PuzzleState.current_piece_idx t :: unwind preds fuel pr := by
      simp only [unwind, hlk]
    rw [hunw, List.reverse_cons]
    rcases hpr_or with rfl | hpr_in
    · have hnone : lookupA preds (PuzzleState.initial p) = none := lookupA_none hinitnk
      have hue : unwind preds fuel (PuzzleState.initial p) = [] := by
        cases fuel
        · rfl
        · simp only [unwind, hnone]
      rw [hue]
      simp only [List.reverse_nil, List.nil_append]
      exact PathTo.cons _ t t [] hstep (PathTo.refl t)
    · have hih := ihf pr hpr_in (by
        have h1 : popRem t + 1 = popRem pr := hpoppair.1
        omega)
      exact pathTo_snoc hih hstep

/-- If the discovered set is closed under transitions and no transition out
of it reaches a terminal state, then no nonempty path from the initial state
reaches a terminal state. -/
theorem closure_no_done {p : Puzzle} {preds : List (Nat × Nat)}
    (H : ∀ s, (s = PuzzleState.initial p ∨ s ∈ keysOf preds) →
      ∀ t ∈ PuzzleState.next_states p s, t ∈ keysOf preds ∧
        PuzzleState.done t = false) :
    ∀ {s l t}, PathTo p s l t → (s = PuzzleState.initial p ∨ s ∈ keysOf preds) →
      l ≠ [] → PuzzleState.done t = false := by
  intro s l t hpath
  induction hpath with
  | refl s =>
    intro _ hne
    exact absurd rfl hne
  | cons s t1 u l hstep hrest ih =>
    intro hs _
    have h1 := H s hs t1 hstep
    by_cases hl : l = []
    · subst hl
      cases hrest
      exact h1.2
    · exact ih (Or.inr h1.1) hl

theorem solveLoop_succ (p : Puzzle) (fuel : Nat) (preds : List (Nat × Nat))
    (frontier : List Nat) (h : frontier.isEmpty = false) :
    solveLoop p (fuel + 1) preds frontier =
      match solveFrontier p frontier preds [] with
      | (preds2, _, some fs) => some (unwind preds2 33 fs).reverse
      | (preds2, nf2, none) => solveLoop p fuel preds2 nf2 := by
  cases frontier
  · simp at h
  · rfl

/-- Main induction for `solveLoop`: soundness of a returned sequence, and
completeness of the `none` answer. -/
theorem solveLoop_spec (p : Puzzle) (hv : p.Valid) :
    ∀ (fuel : Nat) (preds : List (Nat × Nat)) (frontier : List Nat),
      (∀ s ∈ frontier, (∃ l, PathTo p (PuzzleState.initial p) l s) ∧ popRem s < fuel ∧
        (s = PuzzleState.initial p ∨ s ∈ keysOf preds)) →
      (∀ e ∈ preds, e.1 ∈ PuzzleState.next_states p e.2 ∧
        (∃ l, PathTo p (PuzzleState.initial p) l e.2) ∧
        (e.2 = PuzzleState.initial p ∨ e.2 ∈ keysOf preds)) →
      (∀ s, (s = PuzzleState.initial p ∨ s ∈ keysOf preds) → s ∉ frontier →
        ∀ t ∈ PuzzleState.next_states p s, t ∈ keysOf preds ∧
          PuzzleState.done t = false) →
      (∀ seq, solveLoop p fuel preds frontier = some seq →
        ∃ t, PathTo p (PuzzleState.initial p) seq t ∧ PuzzleState.done t = true) ∧
      (solveLoop p fuel preds frontier = none →
        ∀ l t, PathTo p (PuzzleState.initial p) l t → l ≠ [] →
          PuzzleState.done t = false) := by
  intro fuel
  induction fuel with
  | zero =>
    intro preds frontier Hfr Hpreds Hproc
    have hfr_nil : frontier = [] := by
      cases frontier with
      | nil => rfl
      | cons a rest =>
        have := (Hfr a (List.mem_cons_self a rest)).2.1
        omega
    subst hfr_nil
    constructor
    · intro seq h
      exact absurd h (by simp [solveLoop])
    · rintro - l t hpath hne
      exact closure_no_done (fun s hs => Hproc s hs (by simp)) hpath (Or.inl rfl) hne
  | succ fuel ihf =>
    intro preds frontier Hfr Hpreds Hproc
    by_cases hfe : frontier.isEmpty = true
    · have hfr_nil : frontier = [] := by
        cases frontier
        · rfl
        · simp at hfe
      subst hfr_nil
      constructor
      · intro seq h
        exact absurd h (by simp [solveLoop])
      · rintro - l t hpath hne
        exact closure_no_done (fun s hs => Hproc s hs (by simp)) hpath (Or.inl rfl) hne
    · have hfe2 : frontier.isEmpty = false := by
        rw [Bool.not_eq_true] at hfe
        exact hfe
      obtain ⟨⟨preds2, nf2, dd⟩, hsf⟩ :
          ∃ x, solveFrontier p frontier preds [] = x := ⟨_, rfl⟩
      obtain ⟨q1, q2, q3, q4, q5, q6, q7⟩ := solveFrontier_spec p frontier preds []
      rw [hsf] at q1 q2 q3 q4 q5 q6 q7
      have hq1 : ∀ e ∈ preds2, e.1 ∈ PuzzleState.next_states p e.2 ∧
          (∃ l, PathTo p (PuzzleState.initial p) l e.2) ∧
          (e.2 = PuzzleState.initial p ∨ e.2 ∈ keysOf preds2) := by
        intro e he
        rcases q1 e he with h | ⟨h1, h2⟩
        · obtain ⟨hh1, hh2, hh3⟩ := Hpreds e h
          refine ⟨hh1, hh2, ?_⟩
          rcases hh3 with h3 | h3
          · exact Or.inl h3
          · exact Or.inr (q2 _ h3)
        · obtain ⟨hreach, -, hor⟩ := Hfr e.2 h1
          refine ⟨h2, hreach, ?_⟩
          rcases hor with h3 | h3
          · exact Or.inl h3
          · exact Or.inr (q2 _ h3)
      cases dd with
      | some fs =>
        have heq : solveLoop p (fuel + 1) preds frontier =
            some (unwind preds2 33 fs).reverse := by
          rw [solveLoop_succ p fuel preds frontier hfe2, hsf]
        obtain ⟨hfs_done, hfs_keys⟩ := q7 fs rfl
        constructor
        · intro seq hseq
          rw [heq, Option.some.injEq] at hseq
          subst hseq
          refine ⟨fs, ?_, hfs_done⟩
          refine unwind_spec hv hq1 33 fs hfs_keys ?_
          have hpi : popRem (PuzzleState.initial p) = numPieces p - 1 := popRem_initial hv
          have hn27 : numPieces p ≤ 27 := hv.2.2.2.2.1
          omega
        · intro hnone
          rw [heq] at hnone
          simp at hnone
      | none =>
        have heq : solveLoop p (fuel + 1) preds frontier = solveLoop p fuel preds2 nf2 := by
          rw [solveLoop_succ p fuel preds frontier hfe2, hsf]
        have Hfr2 : ∀ s ∈ nf2, (∃ l, PathTo p (PuzzleState.initial p) l s) ∧
            popRem s < fuel ∧ (s = PuzzleState.initial p ∨ s ∈ keysOf preds2) := by
          intro s hs
          rcases q3 s hs with h | ⟨pr, hpr, hstep, hkeys⟩
          · simp at h
          · obtain ⟨⟨l0, hl0⟩, hpop, -⟩ := Hfr pr hpr
            have hinv_pr : StateInv p pr := (pathTo_spec hv hl0 (initial_StateInv hv)).1
            obtain ⟨j, hjn, hjrem, hcur, hbits, hinv_s⟩ := next_states_mem hv hinv_pr hstep
            have hpops : popRem s + 1 = popRem pr := popRem_succ hjrem hbits
            exact ⟨⟨l0 ++ [PuzzleState.current_piece_idx s], pathTo_snoc hl0 hstep⟩,
              by omega, Or.inr hkeys⟩
        have Hproc2 : ∀ s, (s = PuzzleState.initial p ∨ s ∈ keysOf preds2) → s ∉ nf2 →
            ∀ t ∈ PuzzleState.next_states p s, t ∈ keysOf preds2 ∧
              PuzzleState.done t = false := by
          intro s hs hnin t ht
          have hs2 : s = PuzzleState.initial p ∨ s ∈ keysOf preds := by
            rcases hs with h | h
            · exact Or.inl h
            · rcases q5 s h with h2 | h2
              · exact Or.inr h2
              · exact absurd h2 hnin
          by_cases hsfr : s ∈ frontier
          · exact q6 rfl s hsfr t ht
          · obtain ⟨h1, h2⟩ := Hproc s hs2 hsfr t ht
            exact ⟨q2 t h1, h2⟩
        rw [heq]
        exact ihf preds2 nf2 Hfr2 hq1 Hproc2

/-- C2: for a valid puzzle, whenever `solve` returns a sequence it is a
legal capture sequence ending in a terminal state whose length equals the
number of opposing pieces, each opposing piece index appears in it exactly
once, and no shorter legal transition sequence from the initial state reaches
a terminal state; whenever `solve` returns `none`, no terminal state is
reachable by one or more transitions from the initial state. -/
theorem solve_correct (p : Puzzle) (hv : p.Valid) :
    (∀ seq, solve p = some seq →
      (∃ t, PathTo p (PuzzleState.initial p) seq t ∧ PuzzleState.done t = true) ∧
      seq.length = numPieces p - 1 ∧
      (∀ j, j < numPieces p → j ≠ p.player_start → seq.count j = 1) ∧
      (∀ l t, PathTo p (PuzzleState.initial p) l t → PuzzleState.done t = true →
        seq.length ≤ l.length)) ∧
    (solve p = none →
      ∀ l t, PathTo p (PuzzleState.initial p) l t → l ≠ [] →
        PuzzleState.done t = false) := by
  have hinit_inv := initial_StateInv hv
  have hfr : ∀ s ∈ [PuzzleState.initial p],
      (∃ l, PathTo p (PuzzleState.initial p) l s) ∧ popRem s < 33 ∧
        (s = PuzzleState.initial p ∨ s ∈ keysOf ([] : List (Nat × Nat))) := by
    intro s hs
    rw [List.mem_singleton] at hs
    subst hs
    refine ⟨⟨[], PathTo.refl _⟩, ?_, Or.inl rfl⟩
    have := popRem_initial hv
    have := hv.2.2.2.2.1
    omega
  have hpreds : ∀ e ∈ ([] : List (Nat × Nat)), e.1 ∈ PuzzleState.next_states p e.2 ∧
      (∃ l, PathTo p (PuzzleState.initial p) l e.2) ∧
      (e.2 = PuzzleState.initial p ∨ e.2 ∈ keysOf ([] : List (Nat × Nat))) := by
    intro e he
    simp at he
  have hproc : ∀ s, (s = PuzzleState.initial p ∨ s ∈ keysOf ([] : List (Nat × Nat))) →
      s ∉ [PuzzleState.initial p] → ∀ t ∈ PuzzleState.next_states p s,
        t ∈ keysOf ([] : List (Nat × Nat)) ∧ PuzzleState.done t = false := by
    intro s hs hns
    rcases hs with rfl | h
    · exact absurd (List.mem_singleton.mpr rfl) hns
    · simp [keysOf] at h
  obtain ⟨hsome, hnone⟩ := solveLoop_spec p hv 33 [] [PuzzleState.initial p] hfr hpreds hproc
  constructor
  · intro seq hseq
    obtain ⟨t, hpath, hdone⟩ := hsome seq hseq
    obtain ⟨hinv_t, hmem, hnodup, hbits⟩ := pathTo_spec hv hpath hinit_inv
    have hlen : popRem t + seq.length = popRem (PuzzleState.initial p) :=
      pathTo_length hv hpath hinit_inv
    have hpop_t : popRem t = 0 := done_iff_popRem.mp hdone
    have hpi : popRem (PuzzleState.initial p) = numPieces p - 1 := popRem_initial hv
    have hlen2 : seq.length = numPieces p - 1 := by omega
    have hrem_t : PuzzleState.remaining_captures t = 0 := by
      unfold PuzzleState.done at hdone
      rw [beq_iff_eq] at hdone
      exact hdone
    refine ⟨⟨t, hpath, hdone⟩, hlen2, ?_, ?_⟩
    · intro j hjn hjp
      have hjbit : (PuzzleState.remaining_captures (PuzzleState.initial p)).testBit j =
          true := by
        rw [(initial_spec hv).2 j]
        simp [hjn, hjp]
      have := hbits j
      rw [hrem_t, Nat.zero_testBit, hjbit] at this
      have hjmem : j ∈ seq := by
        by_contra hc
        simp [hc] at this
      exact List.count_eq_one_of_mem hnodup hjmem
    · intro l t2 hpath2 hdone2
      have hlen3 : popRem t2 + l.length = popRem (PuzzleState.initial p) :=
        pathTo_length hv hpath2 hinit_inv
      have hpop_t2 : popRem t2 = 0 := done_iff_popRem.mp hdone2
      omega
  · exact hnone

theorem solve_correct_witness :
    ((∀ seq, solve puzzleB = some seq →
      (∃ t, PathTo puzzleB (PuzzleState.initial puzzleB) seq t ∧
        PuzzleState.done t = true) ∧
      seq.length = numPieces puzzleB - 1 ∧
      (∀ j, j < numPieces puzzleB → j ≠ puzzleB.player_start → seq.count j = 1) ∧
      (∀ l t, PathTo puzzleB (PuzzleState.initial puzzleB) l t →
        PuzzleState.done t = true → seq.length ≤ l.length)) ∧
    (solve puzzleB = none →
      ∀ l t, PathTo puzzleB (PuzzleState.initial puzzleB) l t → l ≠ [] →
        PuzzleState.done t = false)) :=
  solve_correct puzzleB (by decide)
